import Mathlib

/-! # Verification of the GDELT trends pipeline

Shallow embedding of the core ingestion–aggregation–scoring pipeline of the
`gdelt-app` repository, together with theorems settling the specification
claims about it.

Conventions of the embedding:
* JS strings are `String` / `List Char`; only the ASCII behaviour of
  `toLowerCase`, `trim` and the `\w`, `\s`, `\d` regex classes is modelled,
  which is the character range of GDELT GKG fields.
* JS numbers holding counts are `ℕ`; instants (epoch milliseconds) and
  calendar days are `ℤ`; the scorer's floating point arithmetic is modelled
  with real numbers (`ℝ`), and the digit-percentage test with exact integer
  arithmetic.
* A UTC calendar day is represented by the floor of epoch-milliseconds over
  86400000, which is in bijection with `toISOString().slice(0, 10)`.
* Throwing JS code is modelled with `Except JsError`; the MongoDB collection
  is a list of trend documents and `findOneAndUpdate` with `upsert: true` is
  modelled by `upsertBy` below.  Cache (redis) writes are not part of the
  persistent trend store and are not modelled.
-/

/-- Errors a run of the JS code can raise. -/
inductive JsError : Type
  /-- Property access such as `undefined.toLowerCase()`. -/
  | typeError : JsError
  /-- Use of an identifier that is not in scope. -/
  | referenceError : JsError
  /-- A failed download (network error, HTTP non-2xx, unzip failure, ...). -/
  | fetchFailed : JsError
deriving DecidableEq, Repr

/-- Decidable equality of JS run results, for concrete evaluations. -/
instance {ε α : Type} [DecidableEq ε] [DecidableEq α] :
    DecidableEq (Except ε α)
  | .ok a, .ok b => decidable_of_iff (a = b) (by simp)
  | .ok _, .error _ => .isFalse (by simp)
  | .error _, .ok _ => .isFalse (by simp)
  | .error e, .error f => decidable_of_iff (e = f) (by simp)

/-! ## Tokenizer (`src/utils/cleaner.js`)

The live revision of `cleaner.js` is the one exporting `cleanKeyword`,
`splitAndClean`, `isNoiseToken`, `filterNoiseKeywords` and `isNumericVector`
(these are the names imported by `trendScorer.js` and `gdeltFetcher.js`);
an older revision without the noise filter also appears in the repository
but is not reachable from the entry point. -/

/-- The `\w` regex class: `[A-Za-z0-9_]`. -/
def isWordChar (c : Char) : Bool :=
  ('a' ≤ c && c ≤ 'z') || ('A' ≤ c && c ≤ 'Z') || ('0' ≤ c && c ≤ '9') || c == '_'

/-- The `\s` regex class and `String.prototype.trim` whitespace (ASCII part). -/
def isJsSpace (c : Char) : Bool :=
  c == ' ' || c == '\t' || c == '\n' || c == '\r' || c == '\x0b' || c == '\x0c'

/-- ASCII lowercase of `[a-z]`. -/
def isLowerAlpha (c : Char) : Bool :=
  'a' ≤ c && c ≤ 'z'

/-- Characters allowed in the body of the strict-domain regex `[a-z0-9.-]`,
with the dot handled separately by splitting. -/
def isDomainChar (c : Char) : Bool :=
  ('a' ≤ c && c ≤ 'z') || ('0' ≤ c && c ≤ '9') || c == '-'

/-- `String.prototype.trim`: drop leading and trailing whitespace. -/
def jsTrim (l : List Char) : List Char :=
  (l.dropWhile isJsSpace).rdropWhile isJsSpace

/-- `s.replace(/^[^\w]+|[^\w]+$/g, '')`: strip the leading and the trailing
run of non-word characters. -/
def stripNonWordEnds (l : List Char) : List Char :=
  (l.dropWhile (fun c => !isWordChar c)).rdropWhile (fun c => !isWordChar c)

/-- Helper for `collapseWs`: the `Bool` records whether the previous
character belonged to a whitespace run already emitted as one space. -/
def collapseWsAux : Bool → List Char → List Char
  | _, [] => []
  | inRun, c :: rest =>
    if isJsSpace c then
      if inRun then collapseWsAux true rest
      else ' ' :: collapseWsAux true rest
    else c :: collapseWsAux false rest

/-- `s.replace(/\s+/g, ' ')`: collapse every whitespace run to one space. -/
def collapseWs (l : List Char) : List Char :=
  collapseWsAux false l

/-- `String.prototype.split(sep)` for a one-character separator. -/
def splitOnChar (sep : Char) : List Char → List (List Char)
  | [] => [[]]
  | c :: rest =>
    match splitOnChar sep rest with
    | [] => if c == sep then [[], []] else [[c]]
    | g :: gs => if c == sep then [] :: g :: gs else (c :: g) :: gs

/-- The stopword set of `cleaner.js`. -/
def STOPWORDS : List String :=
  ["the", "a", "an", "and", "or", "of", "in", "for", "on", "with", "to",
   "from", "by", "at", "is", "was", "are"]

/-- `cleanKeyword(raw)`: lowercase, trim, strip enclosing non-word
characters, collapse internal whitespace; `null` for empty results and
stopwords. -/
def cleanKeyword (raw : String) : Option String :=
  if raw = "" then none
  else
    let s := collapseWs (stripNonWordEnds (jsTrim (raw.data.map Char.toLower)))
    if s.isEmpty then none
    else if STOPWORDS.contains s.asString then none
    else some s.asString

/-- `isUrl(token)`: the token matches `^https?:\/\/` or `^www\.`. -/
def isUrl (token : String) : Bool :=
  let t := token.data.map Char.toLower
  "http://".data.isPrefixOf t || "https://".data.isPrefixOf t ||
    "www.".data.isPrefixOf t

/-- `isStrictDomain(token)`: the token fully matches
`^[a-z0-9.-]+\.[a-z]{2,}$` (the final group cannot contain a dot, so the
match decomposes the token at its last dot) and contains no space. -/
def isStrictDomain (token : String) : Bool :=
  let t := token.data.map Char.toLower
  (match (splitOnChar '.' t).reverse with
   | [] => false
   | tld :: revInit =>
     decide (2 ≤ tld.length) && tld.all isLowerAlpha && !revInit.isEmpty &&
       revInit.all (fun part => part.all isDomainChar) &&
       (decide (2 ≤ revInit.length) || revInit.any (fun part => !part.isEmpty)))
  && !(t.contains ' ')

/-- One number of a numeric vector: `\d+(?:\.\d+)?`. -/
def isNumPart (p : List Char) : Bool :=
  match splitOnChar '.' p with
  | [a] => !a.isEmpty && a.all Char.isDigit
  | [a, b] => !a.isEmpty && a.all Char.isDigit && !b.isEmpty && b.all Char.isDigit
  | _ => false

/-- `isNumericVector(token)`: `^\d+(?:\.\d+)?(?:,\d+(?:\.\d+)?){3,}$`, i.e.
four or more comma-separated integers or decimals. -/
def isNumericVector (token : String) : Bool :=
  if token = "" then false
  else
    let parts := splitOnChar ',' token.data
    decide (4 ≤ parts.length) && parts.all isNumPart

/-- `isMostlyDigitsOrPunct(token)`: more than 60% of the characters are
digits.  The JS code compares `digits / Math.max(len, 1) > 0.6` in floating
point; this is modelled by the exact comparison `10·digits > 6·max(len,1)`,
which agrees with the double computation for every realistic token length. -/
def isMostlyDigitsOrPunct (token : String) : Bool :=
  if token = "" then false
  else
    let s := token.data
    decide (6 * max s.length 1 < 10 * s.countP Char.isDigit)

/-- `isNoiseToken(token)`: short, URL, strict domain, numeric vector or
mostly-digits tokens are noise; the checks run on the trimmed token. -/
def isNoiseToken (token : String) : Bool :=
  if token = "" then true
  else
    let s := (jsTrim token.data).asString
    if s.length < 3 then true
    else if isUrl s || isStrictDomain s then true
    else if isNumericVector s then true
    else if isMostlyDigitsOrPunct s then true
    else false

/-- `splitAndClean(fieldValue)`: split the semicolon-delimited field, clean
each part, drop empty results and noise tokens. -/
def splitAndClean (fieldValue : String) : List String :=
  if fieldValue = "" then []
  else
    (((splitOnChar ';' fieldValue.data).map
        (fun part => cleanKeyword part.asString)).filterMap id).filter
      (fun token => !isNoiseToken token)

/-! ## Stable sorting

`Array.prototype.sort` with the numeric comparator `(a, b) => key(b) - key(a)`
is (since ES2019) a stable descending sort by `key`.  It is embedded as a
stable insertion sort: an element is inserted behind every earlier element
whose key is at least as large. -/

/-- Insert `x` into `l`, skipping the elements with a strictly larger key so
that ties keep their original relative order. -/
def insertDescBy {α κ : Type} [LinearOrder κ] (key : α → κ) (x : α) :
    List α → List α
  | [] => [x]
  | y :: ys => if key x < key y then y :: insertDescBy key x ys else x :: y :: ys

/-- Stable descending sort by `key`, the embedding of
`.sort((a, b) => key(b) - key(a))`. -/
def sortDescBy {α κ : Type} [LinearOrder κ] (key : α → κ) : List α → List α
  | [] => []
  | x :: xs => insertDescBy key x (sortDescBy key xs)

/-- JS `Set` built from a list: the distinct elements in order of first
occurrence (`Array.from(new Set(l))`). -/
def firstSeen (arr : List String) : List String :=
  arr.foldl (fun acc k => if k ∈ acc then acc else acc ++ [k]) []

/-! ## Ranker (`src/utils/ranker.js`)

`rankByCount` over an array of keyword strings: tally occurrences in a
plain object, read the tally back with `Object.entries`, sort descending
by count, truncate.  An ordinary object enumerates its array-index keys
(canonical decimal strings of integers below `2^32 - 1`) first, in
ascending numeric order, and only then the remaining string keys in
insertion order, so `Object.entries` is the insertion-ordered association
list reordered by `jsEntries` below. -/

namespace Ranker

/-- One step of the counting loop `counts[k] = (counts[k] || 0) + 1`,
preserving first-occurrence key order. -/
def bump : List (String × ℕ) → String → List (String × ℕ)
  | [], k => [(k, 1)]
  | (w, c) :: rest, k =>
    if w = k then (w, c + 1) :: rest else (w, c) :: bump rest k

/-- The counts object of `rankByCount` as an association list in key
insertion order (the object's own property creation order). -/
def countsOf (arr : List String) : List (String × ℕ) :=
  arr.foldl bump []

/-- Numeric value of a list of decimal digit characters. -/
def digitsToNat (l : List Char) : ℕ :=
  l.foldl (fun n c => n * 10 + (c.toNat - 48)) 0

/-- Whether a string is an array index in the ECMAScript sense: the
canonical decimal representation (no leading zero except for the string
consisting of the digit zero alone) of an integer below `2^32 - 1`. -/
def isArrayIndex (s : String) : Bool :=
  match s.data with
  | [] => false
  | [c] => c.isDigit
  | c :: rest =>
    c.isDigit && (c != '0') && rest.all (fun d => d.isDigit) &&
      decide (digitsToNat (c :: rest) < 4294967295)

/-- The `Object.entries` enumeration order of a plain object whose
properties were created in the order of the association list: array-index
keys first in ascending numeric order, then the remaining keys in
insertion order. -/
def jsEntries (m : List (String × ℕ)) : List (String × ℕ) :=
  sortDescBy (fun e => -(digitsToNat e.1.data : ℤ))
      (m.filter (fun e => isArrayIndex e.1)) ++
    m.filter (fun e => !isArrayIndex e.1)

/-- The list `Object.entries(counts)` of `rankByCount`. -/
def entriesOf (arr : List String) : List (String × ℕ) :=
  jsEntries (countsOf arr)

/-- `rankByCount(arr, topN)` from `src/utils/ranker.js`. -/
def rankByCount (arr : List String) (topN : ℕ) : List (String × ℕ) :=
  (sortDescBy Prod.snd (entriesOf arr)).take topN

end Ranker

/-! ## Trend documents and the persistent store

A Mongo `Trend` document (`src/models/trendModel.js`); the collection is a
list of documents, and `findOneAndUpdate(filter, update, { upsert: true })`
replaces the first matching document or inserts one. -/

/-- A keyword entry of a Trend document. -/
structure Kw : Type where
  word : String
  count : ℕ
  score : Option ℤ := none
  documents : List String := []
deriving DecidableEq, Repr

/-- A persisted Trend document.  The `date` field is the UTC day number (the
bijective image of the stored `YYYY-MM-DD` string); `timestamp` is in epoch
milliseconds. -/
structure TrendDoc : Type where
  timestamp : ℤ
  type : String
  date : ℤ
  category : String
  keywords : List Kw
deriving DecidableEq, Repr

/-- The persistent trend collection. -/
abbrev Store := List TrendDoc

/-- Replace the first document satisfying `flt` by `payload`. -/
def replaceFirst (flt : TrendDoc → Bool) (payload : TrendDoc) : Store → Store
  | [] => []
  | d :: ds => if flt d then payload :: ds else d :: replaceFirst flt payload ds

/-- `Trend.findOneAndUpdate(filter, doc, { upsert: true })`: replace the
first match, or insert the document when nothing matches. -/
def upsertBy (flt : TrendDoc → Bool) (payload : TrendDoc) (store : Store) :
    Store :=
  if store.any flt then replaceFirst flt payload store else store ++ [payload]

/-- `Trend.findOne(filter)`: the first matching document. -/
def findFirst (flt : TrendDoc → Bool) (store : Store) : Option TrendDoc :=
  store.find? flt

/-- The `(type, date, category)` match used by `saveTrends`,
`aggregateDaily` and the scorer's `ranked` write. -/
def matchKey (t : String) (d : ℤ) (c : String) (doc : TrendDoc) : Bool :=
  doc.type == t && doc.date == d && doc.category == c

/-- The store invariant of spec §3: at most one persisted Trend per
`(type, date, category)` triple. -/
def AtMostOne (s : Store) : Prop :=
  ∀ t d c, (s.filter (matchKey t d c)).length ≤ 1

/-- Milliseconds per UTC day. -/
def msPerDay : ℤ := 86400000

/-- `toISOString().slice(0, 10)` of an epoch-millisecond instant, as a UTC
day number. -/
def dayOfMs (ms : ℤ) : ℤ :=
  Int.fdiv ms msPerDay

/-! ## Aggregator (`src/services/aggregator.js`)

The aggregator's own `rankByCount` takes keyword objects `{word, count?,
documents?}` built by `parser.js`.  Its loop reads `item.word.toLowerCase()`
without a guard, so an item with a missing `word` raises a `TypeError`. -/

/-- A keyword object as built by `parser.js`: `{word, count?, documents?}`
with any of the fields possibly absent. -/
structure AggItem : Type where
  word : Option String
  count : Option ℕ := none
  documents : Option (List String) := none
deriving DecidableEq, Repr

namespace Aggregator

/-- A value of the aggregator's `Map`: accumulated count and the document
set in insertion order. -/
structure Entry : Type where
  word : String
  count : ℕ
  documents : List String
deriving DecidableEq, Repr

/-- Add documents to a `Set` kept as a first-seen-ordered list. -/
def addDocs (docs newDocs : List String) : List String :=
  newDocs.foldl (fun acc d => if d ∈ acc then acc else acc ++ [d]) docs

/-- Merge one item into the map (kept in key insertion order): a fresh entry
starts at count 0, then `entry.count += item.count || 1` and the document
set is extended. -/
def bumpEntry : List Entry → String → ℕ → List String → List Entry
  | [], w, cnt, docs => [⟨w, cnt, addDocs [] docs⟩]
  | e :: rest, w, cnt, docs =>
    if e.word = w then ⟨e.word, e.count + cnt, addDocs e.documents docs⟩ :: rest
    else e :: bumpEntry rest w cnt docs

/-- One iteration of the `for (const item of arr)` loop; `item.word` being
absent makes `item.word.toLowerCase()` throw a `TypeError`. -/
def step (acc : List Entry) (item : AggItem) : Except JsError (List Entry) :=
  match item.word with
  | none => .error .typeError
  | some w₀ =>
    let w := (w₀.data.map Char.toLower).asString
    let cnt : ℕ := match item.count with
      | none => 1
      | some c => if c = 0 then 1 else c
    .ok (bumpEntry acc w cnt (item.documents.getD []))

/-- `rankByCount(arr, topN)` from `src/services/aggregator.js`: fold the
items into the map, convert, sort descending by count, truncate. -/
def rankByCount (arr : List AggItem) (topN : ℕ) :
    Except JsError (List Entry) := do
  let entries ← arr.foldlM step []
  pure ((sortDescBy Entry.count entries).take topN)

end Aggregator

/-- The per-file collector built by `parser.js` (keyword objects plus the
raw document-identifier bag). -/
structure PCollector : Type where
  themes : List AggItem := []
  persons : List AggItem := []
  orgs : List AggItem := []
  documentIdentifiers : List String := []
deriving Repr

/-- `collector[cat] || []`. -/
def PCollector.getCat (c : PCollector) (cat : String) : List AggItem :=
  if cat = "themes" then c.themes
  else if cat = "persons" then c.persons
  else if cat = "orgs" then c.orgs
  else []

/-- A map entry as a stored keyword. -/
def entryToKw (e : Aggregator.Entry) : Kw :=
  ⟨e.word, e.count, none, e.documents⟩

/-- `aggregateFromFile({collector, timestamp, category})`.  Note the
`realtime` upsert filter: `{ type, date, category, timestamp }` — the
`timestamp` is part of the match key (`aggregator.js` lines 66 and 83).
The concurrent `Promise.all` writes touch pairwise distinct keys and are
modelled as a left fold; redis cache writes are not store writes. -/
def aggregateFromFile (collector : PCollector) (timestamp : ℤ)
    (category : String) (topN : ℕ) (store : Store) : Except JsError Store :=
  let dateStr := dayOfMs timestamp
  let cats := if category = "all" then ["themes", "persons", "orgs"]
    else [category]
  (cats.foldlM (fun st cat => do
      let ranked ← Aggregator.rankByCount (collector.getCat cat) topN
      pure (upsertBy
        (fun d => matchKey "realtime" dateStr cat d && d.timestamp == timestamp)
        ⟨timestamp, "realtime", dateStr, cat, ranked.map entryToKw⟩ st))
    store).map (fun st =>
      let docIdsUnique := firstSeen collector.documentIdentifiers
      if docIdsUnique.isEmpty then st
      else upsertBy
        (fun d => matchKey "realtime" dateStr "documents" d &&
          d.timestamp == timestamp)
        ⟨timestamp, "realtime", dateStr, "documents",
          docIdsUnique.map (fun id => ⟨id, 1, none, []⟩)⟩ st)

/-- `aggregateDaily({collectorsArray, date, category})`: concatenate the
bags, rank, upsert `daily` documents matched on `(type, date, category)`;
`now` is the wall-clock `new Date()` taken at the start. -/
def aggregateDaily (collectorsArray : List PCollector) (date : ℤ)
    (category : String) (topN : ℕ) (now : ℤ) (store : Store) :
    Except JsError Store :=
  let merged : PCollector :=
    ⟨collectorsArray.foldl (fun a c => a ++ c.themes) [],
     collectorsArray.foldl (fun a c => a ++ c.persons) [],
     collectorsArray.foldl (fun a c => a ++ c.orgs) [],
     collectorsArray.foldl (fun a c => a ++ c.documentIdentifiers) []⟩
  let cats := if category = "all" then ["themes", "persons", "orgs"]
    else [category]
  (cats.foldlM (fun st cat => do
      let ranked ← Aggregator.rankByCount (merged.getCat cat) topN
      pure (upsertBy (matchKey "daily" date cat)
        ⟨now, "daily", date, cat, ranked.map entryToKw⟩ st))
    store).map (fun st =>
      let docIdsUnique := firstSeen merged.documentIdentifiers
      if docIdsUnique.isEmpty then st
      else upsertBy (matchKey "daily" date "documents")
        ⟨now, "daily", date, "documents",
          docIdsUnique.map (fun id => ⟨id, 1, none, []⟩)⟩ st)

/-! ## Fetcher (`src/services/gdeltFetcher.js`)

`downloadAndParse` fetches, unzips and stream-parses one GDELT artifact.
Its outcome is determined by the requested URL: the 15-minute file is
identified by its minute-floored instant, the daily file by its UTC day.
The network and the parsed file contents are an oracle `FetchEnv`. -/

/-- The collector filled by `parseCsvStreamToCollector` in the fetcher:
plain token bags. -/
structure FCollector : Type where
  themes : List String := []
  persons : List String := []
  orgs : List String := []
  documentIdentifiers : List String := []
deriving DecidableEq, Repr

/-- Oracle for `downloadAndParse`: `none` is any failure (network, HTTP
non-2xx, unzip or stream error), `some c` a successfully parsed collector. -/
structure FetchEnv : Type where
  /-- Outcome for the 15-minute URL of a minute-floored instant (ms). -/
  fifteen : ℤ → Option FCollector
  /-- Outcome for the daily URL of a UTC day. -/
  daily : ℤ → Option FCollector

/-- The instant encoded in `getFilenameForUTC`: minutes floored to a
multiple of 15 (seconds zeroed). -/
def floor15 (ms : ℤ) : ℤ :=
  Int.fdiv ms 900000 * 900000

/-- `rankCollector(collector)`: rank the three entity bags to `topN`
(`config.topN || 50`). -/
def rankCollector (c : FCollector) (topN : ℕ) :
    List (String × ℕ) × List (String × ℕ) × List (String × ℕ) :=
  (Ranker.rankByCount c.themes topN, Ranker.rankByCount c.persons topN,
    Ranker.rankByCount c.orgs topN)

/-- A ranked pair as a stored keyword. -/
def pairToKw (p : String × ℕ) : Kw :=
  ⟨p.1, p.2, none, []⟩

/-- `saveTrends({date, timestamp, jobType, themes, persons, orgs,
documentIdentifiers})` of the current `gdeltFetcher.js`: build the per
category documents (plus a `documents` one when identifiers exist), and for
each with a non-empty keyword list upsert on the `(type, date, category)`
key, `$set`-ting `keywords` and `timestamp`. -/
def saveStep (st : Store) (td : TrendDoc) : Store :=
  if td.keywords.isEmpty then st
  else upsertBy (matchKey td.type td.date td.category) td st

def saveTrends (dateMs ts : ℤ) (jobType : Option String)
    (themes persons orgs : List Kw) (documentIdentifiers : List String)
    (store : Store) : Store :=
  let isoDate := dayOfMs dateMs
  let jt := jobType.getD "realtime"
  let base : List TrendDoc :=
    [⟨ts, jt, isoDate, "themes", themes⟩,
     ⟨ts, jt, isoDate, "persons", persons⟩,
     ⟨ts, jt, isoDate, "orgs", orgs⟩]
  let trends := if documentIdentifiers.isEmpty then base
    else base ++ [⟨ts, jt, isoDate, "documents",
      documentIdentifiers.map (fun id => ⟨id, 1, none, []⟩)⟩]
  trends.foldl saveStep store

/-- The body of the `try` around the 15-minute fetch in the current
`fetchAndProcess`.  After a successful download the code evaluates
`d.toISOString()` and passes `dailyDate`, but neither `d` nor `dailyDate`
is in scope there (`gdeltFetcher.js` lines 123 and 126, the variables are
local to the later fallback loop), so the branch raises a `ReferenceError`
before reaching `saveTrends`; a failed download raises the fetch error.
Either way the surrounding `catch` swallows the error. -/
def fifteenAttempt (dateMs : ℤ) (env : FetchEnv) : Except JsError Unit :=
  match env.fifteen (floor15 dateMs) with
  | none => .error .fetchFailed
  | some _ => .error .referenceError

/-- One rung of the daily fallback ladder: on success, rank and persist via
`saveTrends` with `jobType: 'daily'` and both `date` and `timestamp` set to
UTC midnight of the attempted day. -/
def dailyAttempt (day : ℤ) (topN : ℕ) (env : FetchEnv) (store : Store) :
    Option Store :=
  match env.daily day with
  | none => none
  | some c =>
    let ranked := rankCollector c topN
    let dailyDate := day * msPerDay
    some (saveTrends dailyDate dailyDate (some "daily")
      (ranked.1.map pairToKw) (ranked.2.1.map pairToKw)
      (ranked.2.2.map pairToKw) c.documentIdentifiers store)

/-- `fetchAndProcess(date, options)` of the current `gdeltFetcher.js`: the
15-minute branch always faults (see `fifteenAttempt`), then the daily
ladder tries offsets 0 and 1 day; `options.jobType` and `options.timestamp`
are never used on a live path.  Returns the JS boolean result and the
resulting store. -/
def fetchAndProcess (dateMs : ℤ) (topN : ℕ) (env : FetchEnv)
    (store : Store) : Bool × Store :=
  match fifteenAttempt dateMs env with
  | .ok _ => (true, store)
  | .error _ =>
    let day0 := dayOfMs dateMs
    match dailyAttempt day0 topN env store with
    | some st => (true, st)
    | none =>
      match dailyAttempt (day0 - 1) topN env store with
      | some st => (true, st)
      | none => (false, store)

/-! ## Scorer (`src/services/trendScorer.js`) -/

/-- The `Map` used for baseline counting, as an association list in key
insertion order; `m.set(w, (m.get(w) || 0) + c)`. -/
def bumpBy : List (String × ℕ) → String → ℕ → List (String × ℕ)
  | [], w, c => [(w, c)]
  | (w₀, c₀) :: rest, w, c =>
    if w₀ = w then (w₀, c₀ + c) :: rest else (w₀, c₀) :: bumpBy rest w c

/-- `m.get(w) || 0` on an association list. -/
def mapGet (m : List (String × ℕ)) (w : String) : ℕ :=
  match m.find? (fun p => p.1 = w) with
  | some p => p.2
  | none => 0

/-- `mergeCounts(docs)`: total occurrences per word across keyword lists,
skipping entries with a missing word. -/
def mergeCounts (keywordLists : List (List Kw)) : List (String × ℕ) :=
  keywordLists.foldl (fun m kws =>
    kws.foldl (fun m' k => if k.word = "" then m' else bumpBy m' k.word k.count) m) []

/-- `filterNoiseKeywords(keywords)`: keep keyword objects with a present,
non-noise word. -/
def filterNoiseKeywords (keywords : List Kw) : List Kw :=
  keywords.filter (fun k => k.word ≠ "" && !isNoiseToken k.word)

/-- `computeStats(arr)`: population mean and standard deviation, with the
`arr.length || 1` guard of the JS code. -/
noncomputable def computeStats (arr : List ℝ) : ℝ × ℝ :=
  let n : ℝ := if arr.length = 0 then 1 else (arr.length : ℝ)
  let mean := arr.sum / n
  let variance := (arr.map (fun b => (b - mean) ^ 2)).sum / n
  (mean, Real.sqrt variance)

/-- `Math.max(v, ...vs)`. -/
noncomputable def jsMax (v : ℝ) (vs : List ℝ) : ℝ :=
  vs.foldl max v

/-- `Math.max(...values)` over a list, `0` in the (unused) empty case. -/
noncomputable def jsMaxList : List ℝ → ℝ
  | [] => 0
  | v :: vs => jsMax v vs

/-- `normalizeTo100(values)`: empty stays empty; a non-positive maximum
yields all zeros; otherwise scale linearly so the maximum maps to 100 and
round (`Math.round`, i.e. `⌊x + 1/2⌋`). -/
noncomputable def normalizeTo100 (values : List ℝ) : List ℤ :=
  match values with
  | [] => []
  | v :: vs =>
    let mx := jsMax v vs
    if mx ≤ 0 then (v :: vs).map (fun _ => 0)
    else (v :: vs).map (fun x => round (x / mx * 100))

/-- The statistics `scoreCore` computes over the baseline values, with the
`[0]` substitute for an empty baseline. -/
noncomputable def baselineStats (baselineMap : List (String × ℕ)) : ℝ × ℝ :=
  let baselineValues : List ℝ := baselineMap.map (fun p => (p.2 : ℝ))
  computeStats (if baselineValues.isEmpty then [(0 : ℝ)] else baselineValues)

/-- The population mean and standard deviation as the specification words
them, written independently of `computeStats`: `μ = Σv/n` and
`σ = sqrt(Σ(v−μ)²/n)` over the baseline values, `[0]` when the baseline is
empty. -/
noncomputable def specBaselineStats (baselineMap : List (String × ℕ)) : ℝ × ℝ :=
  let vals : List ℝ :=
    if baselineMap = [] then [0] else baselineMap.map (fun p => (p.2 : ℝ))
  let mu := vals.sum / (vals.length : ℝ)
  (mu, Real.sqrt ((vals.map (fun b => (b - mu) ^ 2)).sum / (vals.length : ℝ)))

/-- The raw-score loop of `scoreCore`: per keyword
`0.6·log1p(count) + 0.3·log1p(growth) + 0.1·max(0, z)`. -/
noncomputable def rawScores (current baselineMap : List (String × ℕ))
    (windowDays : ℕ) : List (String × ℝ) :=
  let stats := baselineStats baselineMap
  current.map (fun p =>
    let base : ℝ := (mapGet baselineMap p.1 : ℝ)
    let volume := Real.log (1 + (p.2 : ℝ))
    let growth := ((p.2 : ℝ) + 1) / (base / max (windowDays : ℝ) 1 + 1)
    let z := if stats.2 > 0 then ((p.2 : ℝ) - stats.1) / stats.2 else 0
    (p.1, 0.6 * volume + 0.3 * Real.log (1 + growth) + 0.1 * max 0 z))

/-- `scoreCore({current, baselineMap, windowDays, topN})`: raw scores, then
normalization to 100, descending stable sort by score and truncation. -/
noncomputable def scoreCore (current : List (String × ℕ))
    (baselineMap : List (String × ℕ)) (windowDays topN : ℕ) :
    List (String × ℤ) :=
  let scores := rawScores current baselineMap windowDays
  let normalized := normalizeTo100 (scores.map Prod.snd)
  (sortDescBy Prod.snd
    ((scores.zip normalized).map (fun q => (q.1.1, q.2)))).take topN

/-- `generateWindowDates(dateStr, windowDays)`: the days from
`date − windowDays` up to but excluding `date`. -/
def generateWindowDates (day : ℤ) (windowDays : ℕ) : List ℤ :=
  (List.range windowDays).map (fun i => day - windowDays + i)

/-- `ensureDailyCoverage(dateStr, windowDays)`: for every needed day (the
date itself and its baseline window, all pairwise distinct) with no `daily`
document of any category in the store, invoke `fetchAndProcess` on the
day's noon instant.  The awaited batch (first 31) and the fire-and-forget
remainder run the same calls with all failures swallowed; they are modelled
as one sequential pass in order. -/
def ensureDailyCoverage (day : ℤ) (windowDays cfgTopN : ℕ) (env : FetchEnv)
    (store : Store) : Store :=
  let allNeeded := day :: generateWindowDates day windowDays
  let present := (store.filter
    (fun d => d.type == "daily" && allNeeded.contains d.date)).map (·.date)
  let missing := allNeeded.filter (fun ds => !present.contains ds)
  missing.foldl
    (fun st ds => (fetchAndProcess (ds * msPerDay + 43200000) cfgTopN env st).2)
    store

/-- An element of the list returned by `scoreTrends`:
`{word, score, count}`. -/
structure ScoredKw : Type where
  word : String
  score : ℤ
  count : ℕ
deriving DecidableEq, Repr

/-- `scoreTrends({date, category, windowDays, topN})`: ensure coverage,
load the current `daily` document and the baseline window, return `[]` when
the current document is missing or empty, otherwise run the three scoring
tiers, enrich with current counts, persist the `ranked` document matched on
`(type, date, category)` and return the list.  `cfgTopN` is `config.topN`
used by the transitive fetches, `now` the wall clock of the `ranked`
write. -/
noncomputable def scoreTrends (day : ℤ) (category : String)
    (windowDays topN cfgTopN : ℕ) (now : ℤ) (env : FetchEnv)
    (store : Store) : List ScoredKw × Store :=
  let store₁ := ensureDailyCoverage day windowDays cfgTopN env store
  let currentDoc := findFirst (matchKey "daily" day category) store₁
  let baselineDocs := store₁.filter (fun d =>
    d.type == "daily" && decide (day - (windowDays : ℤ) ≤ d.date) &&
      decide (d.date < day) && d.category == category)
  match currentDoc with
  | none => ([], store₁)
  | some cd =>
    if cd.keywords.isEmpty then ([], store₁)
    else
      let used₁ := filterNoiseKeywords cd.keywords
      let baseMap₁ :=
        mergeCounts (baselineDocs.map (fun d => filterNoiseKeywords d.keywords))
      let ranked₁ :=
        scoreCore (used₁.map (fun k => (k.word, k.count))) baseMap₁ windowDays topN
      let used₂ := if ranked₁.isEmpty then
          cd.keywords.filter (fun k => k.word ≠ "" && !isNumericVector k.word)
        else used₁
      let ranked₂ := if ranked₁.isEmpty then
          scoreCore (used₂.map (fun k => (k.word, k.count)))
            (mergeCounts (baselineDocs.map (fun d =>
              d.keywords.filter (fun k => k.word ≠ "" && !isNumericVector k.word))))
            windowDays topN
        else ranked₁
      let used₃ := if ranked₂.isEmpty then
          cd.keywords.filter (fun k => k.word ≠ "" && !isNoiseToken k.word)
        else used₂
      let ranked₃ := if ranked₂.isEmpty then
          ((sortDescBy Kw.count used₃).take topN).map (fun k => (k.word, (100 : ℤ)))
        else ranked₂
      let countMap := used₃.foldl
        (fun m k => if k.word = "" then m else bumpBy m k.word k.count) []
      let rankedWithCounts : List ScoredKw :=
        ranked₃.map (fun r => ⟨r.1, r.2, mapGet countMap r.1⟩)
      let resultDoc : TrendDoc := ⟨now, "ranked", day, category,
        rankedWithCounts.map (fun k => ⟨k.word, k.count, some k.score, []⟩)⟩
      (rankedWithCounts, upsertBy (matchKey "ranked" day category) resultDoc store₁)

/-! ## Lemmas about the stable sort -/

section SortLemmas

variable {α κ : Type} [LinearOrder κ] (key : α → κ)

theorem insertDescBy_perm (x : α) (l : List α) :
    List.Perm (insertDescBy key x l) (x :: l) := by
  induction l with
  | nil => simp [insertDescBy]
  | cons y ys ih =>
    by_cases h : key x < key y
    · simpa [insertDescBy, h] using ((ih.cons y).trans (List.Perm.swap x y ys))
    · simp [insertDescBy, h]

theorem sortDescBy_perm (l : List α) : List.Perm (sortDescBy key l) l := by
  induction l with
  | nil => simp [sortDescBy]
  | cons x xs ih =>
    exact (insertDescBy_perm key x (sortDescBy key xs)).trans (ih.cons x)

theorem insertDescBy_pairwise_ge (x : α) (l : List α)
    (hl : l.Pairwise (fun a b => key b ≤ key a))
    (hx : ∀ y ∈ l, key x < key y ∨ key y ≤ key x) :
    (insertDescBy key x l).Pairwise (fun a b => key b ≤ key a) := by
  induction l with
  | nil => simp [insertDescBy]
  | cons y ys ih =>
    by_cases h : key x < key y
    · rw [insertDescBy, if_pos h]
      refine List.Pairwise.cons ?_ (ih hl.tail (fun z hz => hx z (List.mem_cons_of_mem _ hz)))
      intro z hz
      have hz₂ := (insertDescBy_perm key x ys).mem_iff.mp hz
      rw [List.mem_cons] at hz₂
      rcases hz₂ with rfl | hz₂
      · exact le_of_lt h
      · exact List.rel_of_pairwise_cons hl hz₂
    · rw [insertDescBy, if_neg h]
      push_neg at h
      refine List.Pairwise.cons ?_ hl
      intro z hz
      rw [List.mem_cons] at hz
      rcases hz with rfl | hz₂
      · exact h
      · exact le_trans (List.rel_of_pairwise_cons hl hz₂) h

theorem sortDescBy_sorted (l : List α) :
    (sortDescBy key l).Pairwise (fun a b => key b ≤ key a) := by
  induction l with
  | nil => simp [sortDescBy]
  | cons x xs ih =>
    exact insertDescBy_pairwise_ge key x _ ih (fun y _ => lt_or_ge (key x) (key y))

theorem insertDescBy_filter_eq (c : κ) (x : α) (l : List α) :
    (insertDescBy key x l).filter (fun e => key e == c) =
      (x :: l).filter (fun e => key e == c) := by
  induction l with
  | nil => simp [insertDescBy]
  | cons y ys ih =>
    by_cases h : key x < key y
    · rw [insertDescBy, if_pos h]
      by_cases hy : key y = c
      · have hx : ¬ key x = c := fun hx => absurd (hx.trans hy.symm ▸ h) (lt_irrefl _)
        simp only [List.filter_cons, beq_iff_eq, hy, hx, if_pos, if_neg, ih]
        simp [List.filter_cons, hx, hy]
      · simp only [List.filter_cons, beq_iff_eq, hy, if_neg, ih]
        simp [List.filter_cons, hy]
    · rw [insertDescBy, if_neg h]

theorem sortDescBy_filter_eq (c : κ) (l : List α) :
    (sortDescBy key l).filter (fun e => key e == c) =
      l.filter (fun e => key e == c) := by
  induction l with
  | nil => simp [sortDescBy]
  | cons x xs ih =>
    rw [sortDescBy, insertDescBy_filter_eq]
    simp only [List.filter_cons]
    rw [ih]

end SortLemmas

/-! ## Lemmas about the ranker's counting loop -/

theorem Ranker.bump_map_snd_sum (m : List (String × ℕ)) (k : String) :
    ((Ranker.bump m k).map Prod.snd).sum = (m.map Prod.snd).sum + 1 := by
  induction m with
  | nil => simp [Ranker.bump]
  | cons e rest ih =>
    obtain ⟨w, c⟩ := e
    by_cases h : w = k
    · simp [Ranker.bump, h]
      omega
    · simp [Ranker.bump, h, ih]
      omega

theorem Ranker.foldl_bump_sum (arr : List String) :
    ∀ acc : List (String × ℕ),
      ((arr.foldl Ranker.bump acc).map Prod.snd).sum =
        (acc.map Prod.snd).sum + arr.length := by
  induction arr with
  | nil => intro acc; simp
  | cons k rest ih =>
    intro acc
    rw [List.foldl_cons, ih, Ranker.bump_map_snd_sum]
    simp only [List.length_cons]
    omega

theorem Ranker.countsOf_sum (arr : List String) :
    ((Ranker.countsOf arr).map Prod.snd).sum = arr.length := by
  have h := Ranker.foldl_bump_sum arr []
  simpa [Ranker.countsOf] using h

theorem Ranker.bump_map_fst (m : List (String × ℕ)) (k : String) :
    (Ranker.bump m k).map Prod.fst =
      if k ∈ m.map Prod.fst then m.map Prod.fst else m.map Prod.fst ++ [k] := by
  induction m with
  | nil => simp [Ranker.bump]
  | cons e rest ih =>
    obtain ⟨w, c⟩ := e
    by_cases h : w = k
    · simp [Ranker.bump, h]
    · simp only [Ranker.bump, if_neg h, List.map_cons, ih]
      by_cases hk : k ∈ rest.map Prod.fst
      · simp [hk, Ne.symm h]
      · simp [hk, Ne.symm h]

theorem Ranker.foldl_bump_fst (arr : List String) :
    ∀ acc : List (String × ℕ),
      (arr.foldl Ranker.bump acc).map Prod.fst =
        arr.foldl (fun a k => if k ∈ a then a else a ++ [k])
          (acc.map Prod.fst) := by
  induction arr with
  | nil => intro acc; simp
  | cons k rest ih =>
    intro acc
    rw [List.foldl_cons, List.foldl_cons, ih, Ranker.bump_map_fst]

theorem Ranker.countsOf_fst (arr : List String) :
    (Ranker.countsOf arr).map Prod.fst = firstSeen arr := by
  rw [Ranker.countsOf, Ranker.foldl_bump_fst arr [], firstSeen]
  rfl

theorem Ranker.jsEntries_perm (m : List (String × ℕ)) :
    List.Perm (Ranker.jsEntries m) m := by
  refine List.Perm.trans (List.Perm.append ?_ (List.Perm.refl _))
    (List.filter_append_perm (fun e => Ranker.isArrayIndex e.1) m)
  exact sortDescBy_perm _ _

theorem Ranker.entriesOf_sum (arr : List String) :
    ((Ranker.entriesOf arr).map Prod.snd).sum = arr.length := by
  rw [Ranker.entriesOf]
  calc ((Ranker.jsEntries (Ranker.countsOf arr)).map Prod.snd).sum
      = ((Ranker.countsOf arr).map Prod.snd).sum :=
        ((Ranker.jsEntries_perm _).map Prod.snd).sum_eq
    _ = arr.length := Ranker.countsOf_sum arr

theorem map_fst_filter_pred (p : String → Bool) (m : List (String × ℕ)) :
    (m.filter (fun e => p e.1)).map Prod.fst = (m.map Prod.fst).filter p := by
  induction m with
  | nil => rfl
  | cons e rest ih =>
    by_cases h : p e.1
    · simp [List.filter_cons, h, ih]
    · simp [List.filter_cons, h, ih]

theorem filter_not_of_all (p : String → Bool) (l : List (String × ℕ))
    (hall : ∀ e ∈ l, p e.1 = true) :
    l.filter (fun e => !p e.1) = [] := by
  rw [List.filter_eq_nil_iff]
  intro e he
  simp [hall e he]

theorem Ranker.jsEntries_filter_not_index (m : List (String × ℕ)) :
    (Ranker.jsEntries m).filter (fun e => !Ranker.isArrayIndex e.1) =
      m.filter (fun e => !Ranker.isArrayIndex e.1) := by
  rw [Ranker.jsEntries, List.filter_append]
  have hnil : (sortDescBy (fun e => -(Ranker.digitsToNat e.1.data : ℤ))
      (m.filter (fun e => Ranker.isArrayIndex e.1))).filter
        (fun e => !Ranker.isArrayIndex e.1) = [] := by
    refine filter_not_of_all _ _ ?_
    intro e he
    have hmem := (sortDescBy_perm (fun e => -(Ranker.digitsToNat e.1.data : ℤ))
      (m.filter (fun e => Ranker.isArrayIndex e.1))).mem_iff.mp he
    exact (List.mem_filter.mp hmem).2
  rw [hnil, List.nil_append, List.filter_filter]
  apply List.filter_congr
  intro e _
  cases Ranker.isArrayIndex e.1 <;> rfl

theorem Ranker.jsEntries_filter_index (m : List (String × ℕ)) :
    (Ranker.jsEntries m).filter (fun e => Ranker.isArrayIndex e.1) =
      sortDescBy (fun e => -(Ranker.digitsToNat e.1.data : ℤ))
        (m.filter (fun e => Ranker.isArrayIndex e.1)) := by
  rw [Ranker.jsEntries, List.filter_append]
  have hself : (sortDescBy (fun e => -(Ranker.digitsToNat e.1.data : ℤ))
      (m.filter (fun e => Ranker.isArrayIndex e.1))).filter
        (fun e => Ranker.isArrayIndex e.1) =
      sortDescBy (fun e => -(Ranker.digitsToNat e.1.data : ℤ))
        (m.filter (fun e => Ranker.isArrayIndex e.1)) := by
    rw [List.filter_eq_self]
    intro e he
    have hmem := (sortDescBy_perm (fun e => -(Ranker.digitsToNat e.1.data : ℤ))
      (m.filter (fun e => Ranker.isArrayIndex e.1))).mem_iff.mp he
    exact (List.mem_filter.mp hmem).2
  have hnil : (m.filter (fun e => !Ranker.isArrayIndex e.1)).filter
      (fun e => Ranker.isArrayIndex e.1) = [] := by
    rw [List.filter_eq_nil_iff]
    intro e he
    have := (List.mem_filter.mp he).2
    simp only [Bool.not_eq_true'] at this
    simp [this]
  rw [hself, hnil, List.append_nil]

theorem Ranker.entriesOf_index_sorted (arr : List String) :
    ((Ranker.entriesOf arr).filter
        (fun e => Ranker.isArrayIndex e.1)).Pairwise
      (fun a b => Ranker.digitsToNat a.1.data ≤ Ranker.digitsToNat b.1.data) := by
  rw [Ranker.entriesOf, Ranker.jsEntries_filter_index]
  refine List.Pairwise.imp ?_
    (sortDescBy_sorted (fun e => -(Ranker.digitsToNat e.1.data : ℤ)) _)
  intro a b h
  have h₂ : (Ranker.digitsToNat a.1.data : ℤ) ≤ Ranker.digitsToNat b.1.data := by
    linarith
  exact_mod_cast h₂

theorem Ranker.entriesOf_nonindex_fst (arr : List String) :
    ((Ranker.entriesOf arr).filter
        (fun e => !Ranker.isArrayIndex e.1)).map Prod.fst =
      (firstSeen arr).filter (fun w => !Ranker.isArrayIndex w) := by
  rw [Ranker.entriesOf, Ranker.jsEntries_filter_not_index,
    map_fst_filter_pred (fun w => !Ranker.isArrayIndex w), Ranker.countsOf_fst]

theorem sum_take_le (l : List ℕ) (n : ℕ) : (l.take n).sum ≤ l.sum := by
  conv_rhs => rw [← List.take_append_drop n l]
  rw [List.sum_append]
  exact Nat.le_add_right _ _

/-! ## Lemmas about the tokenizer -/

theorem ws_not_word {c : Char} (h : isJsSpace c = true) : isWordChar c = false := by
  simp only [isJsSpace, Bool.or_eq_true, beq_iff_eq] at h
  rcases h with ((((h | h) | h) | h) | h) | h <;> subst h <;> decide

theorem word_not_ws {c : Char} (h : isWordChar c = true) : isJsSpace c = false := by
  cases hc : isJsSpace c
  · rfl
  · rw [ws_not_word hc] at h
    cases h

theorem ws_not_digit {c : Char} (h : isJsSpace c = true) : c.isDigit = false := by
  simp only [isJsSpace, Bool.or_eq_true, beq_iff_eq] at h
  rcases h with ((((h | h) | h) | h) | h) | h <;> subst h <;> decide

theorem dropWhile_head?_false {α : Type} {p : α → Bool} {l : List α} {a : α}
    (h : (l.dropWhile p).head? = some a) : p a = false := by
  induction l with
  | nil => simp at h
  | cons c t ih =>
    rw [List.dropWhile_cons] at h
    by_cases hc : p c
    · rw [if_pos hc] at h
      exact ih h
    · rw [if_neg hc] at h
      simp only [List.head?_cons, Option.some.injEq] at h
      subst h
      exact Bool.eq_false_iff.mpr hc

theorem rdropWhile_getLast?_false {α : Type} {p : α → Bool} {l : List α} {a : α}
    (h : (l.rdropWhile p).getLast? = some a) : p a = false := by
  rw [List.rdropWhile, List.getLast?_reverse] at h
  exact dropWhile_head?_false h

theorem dropWhile_eq_self_of_head? {α : Type} {p : α → Bool} {l : List α}
    {d : α} (h : l.head? = some d) (hp : p d = false) : l.dropWhile p = l := by
  cases l with
  | nil => simp at h
  | cons a t =>
    simp only [List.head?_cons, Option.some.injEq] at h
    subst h
    rw [List.dropWhile_cons, if_neg (by simp [hp])]

theorem rdropWhile_eq_self_of_getLast? {α : Type} {p : α → Bool} {l : List α}
    {d : α} (h : l.getLast? = some d) (hp : p d = false) :
    l.rdropWhile p = l := by
  rw [List.rdropWhile]
  have hrev : l.reverse.head? = some d := by rw [List.head?_reverse, h]
  rw [dropWhile_eq_self_of_head? hrev hp, List.reverse_reverse]

theorem collapseWsAux_getLast? :
    ∀ (m : List Char) (b : Bool) (d : Char), m.getLast? = some d →
      isJsSpace d = false →
      ∃ e, (collapseWsAux b m).getLast? = some e ∧ isJsSpace e = false := by
  intro m
  induction m with
  | nil => intro b d h _; simp at h
  | cons c rest ih =>
    intro b d h hd
    cases rest with
    | nil =>
      simp only [List.getLast?_singleton, Option.some.injEq] at h
      subst h
      exact ⟨c, by simp [collapseWsAux, hd], hd⟩
    | cons r rest₂ =>
      rw [List.getLast?_cons_cons] at h
      by_cases hc : isJsSpace c
      · obtain ⟨e, he, hwe⟩ := ih true d h hd
        have hne : collapseWsAux true (r :: rest₂) ≠ [] := by
          intro hnil
          rw [hnil] at he
          simp at he
        obtain ⟨x, xs, hx⟩ := List.exists_cons_of_ne_nil hne
        cases b with
        | true =>
          refine ⟨e, ?_, hwe⟩
          have hstep : collapseWsAux true (c :: r :: rest₂) =
              collapseWsAux true (r :: rest₂) := by
            rw [collapseWsAux]
            simp [hc]
          rw [hstep]
          exact he
        | false =>
          refine ⟨e, ?_, hwe⟩
          have hstep : collapseWsAux false (c :: r :: rest₂) =
              ' ' :: collapseWsAux true (r :: rest₂) := by
            rw [collapseWsAux]
            simp [hc]
          rw [hstep, hx, List.getLast?_cons_cons, ← hx]
          exact he
      · obtain ⟨e, he, hwe⟩ := ih false d h hd
        have hne : collapseWsAux false (r :: rest₂) ≠ [] := by
          intro hnil
          rw [hnil] at he
          simp at he
        obtain ⟨x, xs, hx⟩ := List.exists_cons_of_ne_nil hne
        refine ⟨e, ?_, hwe⟩
        have hstep : collapseWsAux b (c :: r :: rest₂) =
            c :: collapseWsAux false (r :: rest₂) := by
          rw [collapseWsAux]
          simp [hc]
        rw [hstep, hx, List.getLast?_cons_cons, ← hx]
        exact he

theorem asString_data (l : List Char) : (l.asString).data = l := rfl

theorem data_asString (s : String) : (s.data).asString = s := by
  cases s
  rfl

theorem asString_eq_empty_iff (l : List Char) : l.asString = "" ↔ l = [] := by
  constructor
  · intro h
    have := congrArg String.data h
    simpa using this
  · intro h
    subst h
    rfl

/-- The output of `cleanKeyword` starts and ends with a word character, so
trimming it is the identity: the checks inside `isNoiseToken` run on the
token itself. -/
theorem cleanKeyword_trim_self {raw tok : String}
    (h : cleanKeyword raw = some tok) : jsTrim tok.data = tok.data := by
  rw [cleanKeyword] at h
  by_cases hr : raw = ""
  · rw [if_pos hr] at h; cases h
  rw [if_neg hr] at h
  set m := stripNonWordEnds (jsTrim (raw.data.map Char.toLower)) with hm
  by_cases hes : (collapseWs m).isEmpty
  · rw [if_pos hes] at h; cases h
  rw [if_neg hes] at h
  by_cases hsw : STOPWORDS.contains (collapseWs m).asString
  · rw [if_pos hsw] at h; cases h
  rw [if_neg hsw] at h
  have htok : tok = (collapseWs m).asString := (Option.some.injEq _ _).mp h.symm
  have hdata : tok.data = collapseWs m := by rw [htok, asString_data]
  have hmne : m ≠ [] := by
    intro hnil
    rw [hnil] at hes
    exact hes rfl
  -- head of `m` is a word character
  obtain ⟨a, m', hm'⟩ := List.exists_cons_of_ne_nil hmne
  have hpref := List.rdropWhile_prefix (fun c => !isWordChar c)
    (List.dropWhile (fun c => !isWordChar c) (jsTrim (raw.data.map Char.toLower)))
  obtain ⟨t, ht⟩ := hpref
  have hm₂ : List.rdropWhile (fun c => !isWordChar c)
      (List.dropWhile (fun c => !isWordChar c)
        (jsTrim (raw.data.map Char.toLower))) = m := by
    rw [hm, stripNonWordEnds]
  have hhead : (List.dropWhile (fun c => !isWordChar c)
      (jsTrim (raw.data.map Char.toLower))).head? = some a := by
    rw [← ht, hm₂, hm']
    rfl
  have haw : isWordChar a = true := by
    have := dropWhile_head?_false hhead
    simpa using this
  have haws : isJsSpace a = false := word_not_ws haw
  -- last of `m` is a word character
  have hlast : ∃ dm, m.getLast? = some dm ∧ isJsSpace dm = false := by
    cases hgl : m.getLast? with
    | none =>
      rw [List.getLast?_eq_none_iff] at hgl
      exact absurd hgl hmne
    | some dm =>
      refine ⟨dm, rfl, ?_⟩
      have := rdropWhile_getLast?_false (hm ▸ hgl)
      exact word_not_ws (by simpa using this)
  obtain ⟨dm, hdm, hdmws⟩ := hlast
  -- shape of `collapseWs m`
  have hcw : collapseWs m = a :: collapseWsAux false m' := by
    rw [hm', collapseWs, collapseWsAux, if_neg (by simp [haws])]
  have hshead : (collapseWs m).head? = some a := by rw [hcw]; rfl
  obtain ⟨e, he, hews⟩ := collapseWsAux_getLast? m false dm hdm hdmws
  have hslast : (collapseWs m).getLast? = some e := he
  rw [hdata, jsTrim, dropWhile_eq_self_of_head? hshead haws,
    rdropWhile_eq_self_of_getLast? hslast hews]

/-- Facts recorded by a successful `cleanKeyword`: the token is non-empty
and is not a stopword. -/
theorem cleanKeyword_not_stopword {raw tok : String}
    (h : cleanKeyword raw = some tok) : tok ∉ STOPWORDS ∧ tok ≠ "" := by
  rw [cleanKeyword] at h
  by_cases hr : raw = ""
  · rw [if_pos hr] at h; cases h
  rw [if_neg hr] at h
  set m := stripNonWordEnds (jsTrim (raw.data.map Char.toLower)) with hm
  by_cases hes : (collapseWs m).isEmpty
  · rw [if_pos hes] at h; cases h
  rw [if_neg hes] at h
  by_cases hsw : STOPWORDS.contains (collapseWs m).asString
  · rw [if_pos hsw] at h; cases h
  rw [if_neg hsw] at h
  have htok : tok = (collapseWs m).asString := (Option.some.injEq _ _).mp h.symm
  constructor
  · intro hmem
    apply hsw
    rw [← htok] at hsw ⊢
    exact List.elem_iff.mpr (htok ▸ hmem)
  · intro hempty
    rw [htok, asString_eq_empty_iff] at hempty
    rw [hempty] at hes
    exact hes rfl

/-- Membership in `splitAndClean` comes from a successful clean of one part
together with the noise filter. -/
theorem mem_splitAndClean {t tok : String} (h : tok ∈ splitAndClean t) :
    (∃ part, cleanKeyword part = some tok) ∧ isNoiseToken tok = false := by
  rw [splitAndClean] at h
  by_cases ht : t = ""
  · rw [if_pos ht] at h; cases h
  rw [if_neg ht] at h
  have hf := List.mem_filter.mp h
  refine ⟨?_, by simpa using hf.2⟩
  have hmap := List.mem_filterMap.mp hf.1
  obtain ⟨o, ho, hid⟩ := hmap
  obtain ⟨part, _, hpart⟩ := List.mem_map.mp ho
  exact ⟨part.asString, hpart.trans hid⟩

/-- Unfolding `isNoiseToken tok = false` for a trim-invariant token. -/
theorem isNoiseToken_false_parts {tok : String}
    (htrim : jsTrim tok.data = tok.data) (hne : tok ≠ "")
    (h : isNoiseToken tok = false) :
    3 ≤ tok.length ∧ isUrl tok = false ∧ isStrictDomain tok = false ∧
      isNumericVector tok = false ∧ isMostlyDigitsOrPunct tok = false := by
  rw [isNoiseToken, if_neg hne, htrim, data_asString] at h
  simp only [] at h
  split_ifs at h with h1 h2 h3 h4
  all_goals try cases h
  rw [Bool.or_eq_true] at h2
  push_neg at h2
  refine ⟨by omega, ?_, ?_, ?_, ?_⟩
  · exact Bool.eq_false_iff.mpr h2.1
  · exact Bool.eq_false_iff.mpr h2.2
  · exact Bool.eq_false_iff.mpr h3
  · exact Bool.eq_false_iff.mpr h4

/-! ## Lemmas about the store and its upserts -/

theorem mem_replaceFirst {flt : TrendDoc → Bool} {payload doc : TrendDoc}
    {store : Store} (h : doc ∈ replaceFirst flt payload store) :
    doc ∈ store ∨ doc = payload := by
  induction store with
  | nil => simp [replaceFirst] at h
  | cons d ds ih =>
    rw [replaceFirst] at h
    by_cases hd : flt d
    · rw [if_pos hd] at h
      rcases List.mem_cons.mp h with rfl | h₂
      · exact Or.inr rfl
      · exact Or.inl (List.mem_cons_of_mem _ h₂)
    · rw [if_neg hd] at h
      rcases List.mem_cons.mp h with rfl | h₂
      · exact Or.inl (List.mem_cons_self _ _)
      · rcases ih h₂ with h₃ | h₃
        · exact Or.inl (List.mem_cons_of_mem _ h₃)
        · exact Or.inr h₃

theorem mem_upsertBy {flt : TrendDoc → Bool} {payload doc : TrendDoc}
    {store : Store} (h : doc ∈ upsertBy flt payload store) :
    doc ∈ store ∨ doc = payload := by
  rw [upsertBy] at h
  by_cases hany : store.any flt
  · exact mem_replaceFirst (by rwa [if_pos hany] at h)
  · rw [if_neg hany] at h
    rcases List.mem_append.mp h with h₂ | h₂
    · exact Or.inl h₂
    · exact Or.inr (List.mem_singleton.mp h₂)

theorem replaceFirst_filter_disjoint {flt : TrendDoc → Bool}
    {payload : TrendDoc} {store : Store} (p : TrendDoc → Bool)
    (hflt : ∀ d, flt d = true → p d = false) (hp : p payload = false) :
    (replaceFirst flt payload store).filter p = store.filter p := by
  induction store with
  | nil => rfl
  | cons d ds ih =>
    rw [replaceFirst]
    by_cases hd : flt d
    · rw [if_pos hd, List.filter_cons, List.filter_cons, hp, hflt d hd]
      simp
    · rw [if_neg hd, List.filter_cons, List.filter_cons, ih]

theorem upsertBy_filter_disjoint {flt : TrendDoc → Bool} {payload : TrendDoc}
    {store : Store} (p : TrendDoc → Bool)
    (hflt : ∀ d, flt d = true → p d = false) (hp : p payload = false) :
    (upsertBy flt payload store).filter p = store.filter p := by
  rw [upsertBy]
  by_cases hany : store.any flt
  · rw [if_pos hany, replaceFirst_filter_disjoint p hflt hp]
  · rw [if_neg hany, List.filter_append, List.filter_cons, hp]
    simp

theorem matchKey_fields {t : String} {d : ℤ} {c : String} {doc : TrendDoc}
    (h : matchKey t d c doc = true) :
    doc.type = t ∧ doc.date = d ∧ doc.category = c := by
  simp only [matchKey, Bool.and_eq_true, beq_iff_eq] at h
  exact ⟨h.1.1, h.1.2, h.2⟩

theorem replaceFirst_filter_key_length {t : String} {d : ℤ} {c : String}
    {payload : TrendDoc} {store : Store}
    (hpay : matchKey t d c payload = true) :
    ((replaceFirst (matchKey t d c) payload store).filter
      (matchKey t d c)).length = (store.filter (matchKey t d c)).length := by
  induction store with
  | nil => rfl
  | cons doc ds ih =>
    rw [replaceFirst]
    by_cases hd : matchKey t d c doc
    · rw [if_pos hd, List.filter_cons, List.filter_cons, hpay, hd]
      simp
    · rw [if_neg hd, List.filter_cons, List.filter_cons]
      rw [Bool.eq_false_iff.mpr hd]
      simpa using ih

theorem upsertBy_key_atMostOne {t₀ : String} {d₀ : ℤ} {c₀ : String}
    {payload : TrendDoc} {store : Store}
    (hpay : matchKey t₀ d₀ c₀ payload = true) (h : AtMostOne store) :
    AtMostOne (upsertBy (matchKey t₀ d₀ c₀) payload store) := by
  intro t d c
  by_cases hsame : t = t₀ ∧ d = d₀ ∧ c = c₀
  · obtain ⟨rfl, rfl, rfl⟩ := hsame
    rw [upsertBy]
    by_cases hany : store.any (matchKey t d c)
    · rw [if_pos hany, replaceFirst_filter_key_length hpay]
      exact h t d c
    · rw [if_neg hany, List.filter_append]
      have hnil : store.filter (matchKey t d c) = [] := by
        rw [List.filter_eq_nil_iff]
        intro doc hdoc
        rw [List.any_eq_true] at hany
        push_neg at hany
        simpa using hany doc hdoc
      rw [hnil, List.filter_cons, hpay]
      simp
  · have hdis : ∀ doc, matchKey t₀ d₀ c₀ doc = true → matchKey t d c doc = false := by
      intro doc hdoc
      obtain ⟨h1, h2, h3⟩ := matchKey_fields hdoc
      rw [Bool.eq_false_iff]
      intro hcon
      obtain ⟨g1, g2, g3⟩ := matchKey_fields hcon
      exact hsame ⟨g1 ▸ h1 ▸ rfl, g2 ▸ h2 ▸ rfl, g3 ▸ h3 ▸ rfl⟩
    rw [upsertBy_filter_disjoint _ hdis (hdis payload hpay)]
    exact h t d c

theorem mem_foldl_saveStep :
    ∀ (tds : List TrendDoc) (store : Store) (doc : TrendDoc),
      doc ∈ tds.foldl saveStep store →
      doc ∈ store ∨ ∃ td ∈ tds, td.keywords ≠ [] ∧ doc = td := by
  intro tds
  induction tds with
  | nil => intro store doc h; exact Or.inl h
  | cons td rest ih =>
    intro store doc h
    rw [List.foldl_cons] at h
    rcases ih _ doc h with h₂ | ⟨td₂, htd₂, hne, hdoc⟩
    · rw [saveStep] at h₂
      by_cases hemp : td.keywords.isEmpty
      · rw [if_pos hemp] at h₂
        exact Or.inl h₂
      · rw [if_neg hemp] at h₂
        rcases mem_upsertBy h₂ with h₃ | rfl
        · exact Or.inl h₃
        · exact Or.inr ⟨doc, List.mem_cons_self _ _,
            by simpa using hemp, rfl⟩
    · exact Or.inr ⟨td₂, List.mem_cons_of_mem _ htd₂, hne, hdoc⟩

theorem foldl_saveStep_filter :
    ∀ (tds : List TrendDoc) (store : Store) (p : TrendDoc → Bool),
      (∀ td ∈ tds, td.keywords.isEmpty = true ∨
        (p td = false ∧
          ∀ d, matchKey td.type td.date td.category d = true → p d = false)) →
      (tds.foldl saveStep store).filter p = store.filter p := by
  intro tds
  induction tds with
  | nil => intro store p _; rfl
  | cons td rest ih =>
    intro store p hp
    rw [List.foldl_cons, ih _ p (fun td' h => hp td' (List.mem_cons_of_mem _ h))]
    rw [saveStep]
    rcases hp td (List.mem_cons_self _ _) with hemp | ⟨hptd, hdis⟩
    · rw [if_pos hemp]
    · by_cases hemp : td.keywords.isEmpty
      · rw [if_pos hemp]
      · rw [if_neg hemp, upsertBy_filter_disjoint p hdis hptd]

theorem foldl_saveStep_atMostOne :
    ∀ (tds : List TrendDoc) (store : Store), AtMostOne store →
      AtMostOne (tds.foldl saveStep store) := by
  intro tds
  induction tds with
  | nil => intro store h; exact h
  | cons td rest ih =>
    intro store h
    rw [List.foldl_cons]
    refine ih _ ?_
    rw [saveStep]
    by_cases hemp : td.keywords.isEmpty
    · rw [if_pos hemp]; exact h
    · rw [if_neg hemp]
      exact upsertBy_key_atMostOne (by simp [matchKey]) h

/-! ## Lemmas about the fetcher -/

theorem dayOfMs_mul (d : ℤ) : dayOfMs (d * msPerDay) = d := by
  rw [dayOfMs, msPerDay]
  exact Int.mul_fdiv_cancel d (by norm_num)

theorem saveTrends_mem {dateMs ts : ℤ} {jobType : Option String}
    {themes persons orgs : List Kw} {documentIdentifiers : List String}
    {store : Store} {doc : TrendDoc}
    (h : doc ∈ saveTrends dateMs ts jobType themes persons orgs
      documentIdentifiers store) :
    doc ∈ store ∨ (doc.type = jobType.getD "realtime" ∧
      doc.date = dayOfMs dateMs ∧ doc.keywords ≠ []) := by
  rw [saveTrends] at h
  by_cases hdi : documentIdentifiers.isEmpty
  · rw [if_pos hdi] at h
    rcases mem_foldl_saveStep _ _ _ h with h₂ | ⟨td, htd, hne, rfl⟩
    · exact Or.inl h₂
    · simp only [List.mem_cons, List.not_mem_nil, or_false] at htd
      rcases htd with rfl | rfl | rfl <;> exact Or.inr ⟨rfl, rfl, hne⟩
  · rw [if_neg hdi] at h
    rcases mem_foldl_saveStep _ _ _ h with h₂ | ⟨td, htd, hne, rfl⟩
    · exact Or.inl h₂
    · simp only [List.mem_append, List.mem_cons, List.mem_singleton,
        List.not_mem_nil, or_false] at htd
      rcases htd with (rfl | rfl | rfl) | rfl <;> exact Or.inr ⟨rfl, rfl, hne⟩

theorem saveTrends_filter_type {dateMs ts : ℤ} {jobType : Option String}
    {themes persons orgs : List Kw} {documentIdentifiers : List String}
    {store : Store} (X : String) (hX : jobType.getD "realtime" ≠ X) :
    (saveTrends dateMs ts jobType themes persons orgs documentIdentifiers
      store).filter (fun d => d.type == X) =
      store.filter (fun d => d.type == X) := by
  rw [saveTrends]
  have hstep : ∀ (tds : List TrendDoc),
      (∀ td ∈ tds, td.type = jobType.getD "realtime") →
      (tds.foldl saveStep store).filter (fun d => d.type == X) =
        store.filter (fun d => d.type == X) := by
    intro tds htds
    refine foldl_saveStep_filter tds store _ (fun td htd => Or.inr ⟨?_, ?_⟩)
    · rw [htds td htd]
      exact beq_eq_false_iff_ne.mpr hX
    · intro d hd
      rw [(matchKey_fields hd).1, htds td htd]
      exact beq_eq_false_iff_ne.mpr hX
  by_cases hdi : documentIdentifiers.isEmpty
  · rw [if_pos hdi]
    refine hstep _ ?_
    intro td htd
    simp only [List.mem_cons, List.not_mem_nil, or_false] at htd
    rcases htd with rfl | rfl | rfl <;> rfl
  · rw [if_neg hdi]
    refine hstep _ ?_
    intro td htd
    simp only [List.mem_append, List.mem_cons, List.mem_singleton,
      List.not_mem_nil, or_false] at htd
    rcases htd with (rfl | rfl | rfl) | rfl <;> rfl

theorem saveTrends_atMostOne {dateMs ts : ℤ} {jobType : Option String}
    {themes persons orgs : List Kw} {documentIdentifiers : List String}
    {store : Store} (h : AtMostOne store) :
    AtMostOne (saveTrends dateMs ts jobType themes persons orgs
      documentIdentifiers store) := by
  rw [saveTrends]
  by_cases hdi : documentIdentifiers.isEmpty
  · rw [if_pos hdi]
    exact foldl_saveStep_atMostOne _ _ h
  · rw [if_neg hdi]
    exact foldl_saveStep_atMostOne _ _ h

theorem fifteenAttempt_referenceError {dateMs : ℤ} {env : FetchEnv}
    {c : FCollector} (h : env.fifteen (floor15 dateMs) = some c) :
    fifteenAttempt dateMs env = .error .referenceError := by
  rw [fifteenAttempt, h]

theorem dailyAttempt_some {day : ℤ} {topN : ℕ} {env : FetchEnv}
    {store st : Store} (h : dailyAttempt day topN env store = some st) :
    ∃ c, env.daily day = some c ∧
      st = saveTrends (day * msPerDay) (day * msPerDay) (some "daily")
        ((rankCollector c topN).1.map pairToKw)
        ((rankCollector c topN).2.1.map pairToKw)
        ((rankCollector c topN).2.2.map pairToKw)
        c.documentIdentifiers store := by
  rw [dailyAttempt] at h
  cases hc : env.daily day with
  | none => rw [hc] at h; cases h
  | some c =>
    rw [hc] at h
    simp only [Option.some.injEq] at h
    exact ⟨c, rfl, h.symm⟩

theorem fetchAndProcess_mem {dateMs : ℤ} {topN : ℕ} {env : FetchEnv}
    {store : Store} {doc : TrendDoc}
    (h : doc ∈ (fetchAndProcess dateMs topN env store).2) :
    doc ∈ store ∨ (doc.type = "daily" ∧ doc.keywords ≠ []) := by
  rw [fetchAndProcess] at h
  cases hf : fifteenAttempt dateMs env with
  | ok u => simp only [hf] at h; exact Or.inl h
  | error e =>
    simp only [hf] at h
    cases hd0 : dailyAttempt (dayOfMs dateMs) topN env store with
    | some st =>
      simp only [hd0] at h
      obtain ⟨c, _, rfl⟩ := dailyAttempt_some hd0
      rcases saveTrends_mem h with h₂ | ⟨h₂, _, h₃⟩
      · exact Or.inl h₂
      · exact Or.inr ⟨h₂, h₃⟩
    | none =>
      simp only [hd0] at h
      cases hd1 : dailyAttempt (dayOfMs dateMs - 1) topN env store with
      | some st =>
        simp only [hd1] at h
        obtain ⟨c, _, rfl⟩ := dailyAttempt_some hd1
        rcases saveTrends_mem h with h₂ | ⟨h₂, _, h₃⟩
        · exact Or.inl h₂
        · exact Or.inr ⟨h₂, h₃⟩
      | none => simp only [hd1] at h; exact Or.inl h

theorem fetchAndProcess_filter_ranked (dateMs : ℤ) (topN : ℕ) (env : FetchEnv)
    (store : Store) :
    ((fetchAndProcess dateMs topN env store).2).filter
      (fun d => d.type == "ranked") =
      store.filter (fun d => d.type == "ranked") := by
  rw [fetchAndProcess]
  cases hf : fifteenAttempt dateMs env with
  | ok u => rfl
  | error e =>
    simp only []
    cases hd0 : dailyAttempt (dayOfMs dateMs) topN env store with
    | some st =>
      simp only []
      obtain ⟨c, _, rfl⟩ := dailyAttempt_some hd0
      exact saveTrends_filter_type "ranked" (by decide)
    | none =>
      simp only []
      cases hd1 : dailyAttempt (dayOfMs dateMs - 1) topN env store with
      | some st =>
        simp only []
        obtain ⟨c, _, rfl⟩ := dailyAttempt_some hd1
        exact saveTrends_filter_type "ranked" (by decide)
      | none => rfl

theorem foldl_fetch_filter_ranked (cfgTopN : ℕ) (env : FetchEnv) :
    ∀ (missing : List ℤ) (store : Store),
      ((missing.foldl (fun st ds =>
        (fetchAndProcess (ds * msPerDay + 43200000) cfgTopN env st).2)
        store).filter (fun d => d.type == "ranked")) =
        store.filter (fun d => d.type == "ranked") := by
  intro missing
  induction missing with
  | nil => intro store; rfl
  | cons ds rest ih =>
    intro store
    rw [List.foldl_cons, ih, fetchAndProcess_filter_ranked]

theorem ensureDailyCoverage_filter_ranked (day : ℤ) (windowDays cfgTopN : ℕ)
    (env : FetchEnv) (store : Store) :
    (ensureDailyCoverage day windowDays cfgTopN env store).filter
      (fun d => d.type == "ranked") =
      store.filter (fun d => d.type == "ranked") := by
  rw [ensureDailyCoverage]
  exact foldl_fetch_filter_ranked cfgTopN env _ store
theorem fetchAndProcess_all_fail {dateMs : ℤ} {topN : ℕ} {env : FetchEnv}
    {store : Store} (h15 : env.fifteen (floor15 dateMs) = none)
    (hd0 : env.daily (dayOfMs dateMs) = none)
    (hd1 : env.daily (dayOfMs dateMs - 1) = none) :
    fetchAndProcess dateMs topN env store = (false, store) := by
  rw [fetchAndProcess, fifteenAttempt, h15]
  simp only [dailyAttempt, hd0, hd1]

theorem fetchAndProcess_today {dateMs : ℤ} {topN : ℕ} {env : FetchEnv}
    {store : Store} {c : FCollector} (h15 : env.fifteen (floor15 dateMs) = none)
    (hd0 : env.daily (dayOfMs dateMs) = some c) :
    fetchAndProcess dateMs topN env store =
      (true, saveTrends (dayOfMs dateMs * msPerDay) (dayOfMs dateMs * msPerDay)
        (some "daily") ((rankCollector c topN).1.map pairToKw)
        ((rankCollector c topN).2.1.map pairToKw)
        ((rankCollector c topN).2.2.map pairToKw)
        c.documentIdentifiers store) := by
  rw [fetchAndProcess, fifteenAttempt, h15]
  simp only [dailyAttempt, hd0]

theorem fetchAndProcess_yesterday {dateMs : ℤ} {topN : ℕ} {env : FetchEnv}
    {store : Store} {c : FCollector} (h15 : env.fifteen (floor15 dateMs) = none)
    (hd0 : env.daily (dayOfMs dateMs) = none)
    (hd1 : env.daily (dayOfMs dateMs - 1) = some c) :
    fetchAndProcess dateMs topN env store =
      (true, saveTrends ((dayOfMs dateMs - 1) * msPerDay)
        ((dayOfMs dateMs - 1) * msPerDay)
        (some "daily") ((rankCollector c topN).1.map pairToKw)
        ((rankCollector c topN).2.1.map pairToKw)
        ((rankCollector c topN).2.2.map pairToKw)
        c.documentIdentifiers store) := by
  rw [fetchAndProcess, fifteenAttempt, h15]
  simp only [dailyAttempt, hd0, hd1]

/-! ## Lemmas about the aggregator -/

theorem Aggregator.foldlM_step_error (arr : List AggItem) :
    ∀ acc : List Aggregator.Entry, (∃ it ∈ arr, it.word = none) →
      arr.foldlM Aggregator.step acc = .error .typeError := by
  induction arr with
  | nil => intro acc h; simp at h
  | cons it rest ih =>
    intro acc h
    rw [List.foldlM_cons]
    cases hit : it.word with
    | none =>
      rw [Aggregator.step, hit]
      rfl
    | some w =>
      rw [Aggregator.step, hit]
      have hrest : ∃ it₂ ∈ rest, it₂.word = none := by
        obtain ⟨it₂, hmem, hw⟩ := h
        rcases List.mem_cons.mp hmem with rfl | hmem₂
        · rw [hit] at hw; cases hw
        · exact ⟨it₂, hmem₂, hw⟩
      exact ih _ hrest

theorem Aggregator.rankByCount_error_of_missing_word (arr : List AggItem)
    (topN : ℕ) (h : ∃ it ∈ arr, it.word = none) :
    Aggregator.rankByCount arr topN = .error .typeError := by
  rw [Aggregator.rankByCount, Aggregator.foldlM_step_error arr [] h]
  rfl

theorem foldlM_daily_atMostOne (g : String → Except JsError (List Aggregator.Entry))
    (date now : ℤ) :
    ∀ (cats : List String) (store s₂ : Store),
      (cats.foldlM (fun st cat => do
          let ranked ← g cat
          pure (upsertBy (matchKey "daily" date cat)
            ⟨now, "daily", date, cat, ranked.map entryToKw⟩ st)) store) = .ok s₂ →
      AtMostOne store → AtMostOne s₂ := by
  intro cats
  induction cats with
  | nil =>
    intro store s₂ h hone
    simp only [List.foldlM_nil] at h
    cases h
    exact hone
  | cons cat rest ih =>
    intro store s₂ h hone
    rw [List.foldlM_cons] at h
    cases hg : g cat with
    | error e =>
      rw [hg] at h
      cases h
    | ok r =>
      rw [hg] at h
      exact ih _ s₂ h (upsertBy_key_atMostOne (by simp [matchKey]) hone)

theorem aggregateDaily_atMostOne {collectorsArray : List PCollector}
    {date : ℤ} {category : String} {topN : ℕ} {now : ℤ} {store s₂ : Store}
    (h : aggregateDaily collectorsArray date category topN now store = .ok s₂)
    (hone : AtMostOne store) : AtMostOne s₂ := by
  rw [aggregateDaily] at h
  set cats := if category = "all" then ["themes", "persons", "orgs"]
    else [category] with hcats
  cases hfold : (cats.foldlM _ store : Except JsError Store) with
  | error e =>
    rw [hfold] at h
    cases h
  | ok x =>
    rw [hfold] at h
    simp only [Except.map, Option.some.injEq] at h
    have hx := foldlM_daily_atMostOne _ date now cats store x hfold hone
    cases h
    by_cases hdi : (firstSeen (collectorsArray.foldl
        (fun a c => a ++ c.documentIdentifiers) [])).isEmpty
    · rw [if_pos hdi]
      exact hx
    · rw [if_neg hdi]
      exact upsertBy_key_atMostOne (by simp [matchKey]) hx

/-! ## Lemmas about the scorer -/

theorem le_foldl_max (l : List ℝ) : ∀ a : ℝ, a ≤ l.foldl max a := by
  induction l with
  | nil => intro a; exact le_refl a
  | cons w ws ih =>
    intro a
    rw [List.foldl_cons]
    exact le_trans (le_max_left a w) (ih (max a w))

theorem le_jsMax_self (v : ℝ) (vs : List ℝ) : v ≤ jsMax v vs :=
  le_foldl_max vs v

theorem jsMax_cons (v w : ℝ) (ws : List ℝ) :
    jsMax v (w :: ws) = jsMax (max v w) ws := rfl

theorem le_jsMax_of_mem {x v : ℝ} {vs : List ℝ} (h : x ∈ v :: vs) :
    x ≤ jsMax v vs := by
  induction vs generalizing v with
  | nil =>
    rw [List.mem_singleton] at h
    subst h
    exact le_refl x
  | cons w ws ih =>
    rw [jsMax_cons]
    rcases List.mem_cons.mp h with rfl | h₂
    · exact le_trans (le_max_left x w) (le_jsMax_self _ ws)
    · rcases List.mem_cons.mp h₂ with rfl | h₃
      · exact le_trans (le_max_right v x) (le_jsMax_self _ ws)
      · exact ih (List.mem_cons_of_mem _ h₃)

theorem jsMax_mem (v : ℝ) (vs : List ℝ) : jsMax v vs ∈ v :: vs := by
  induction vs generalizing v with
  | nil => simp [jsMax]
  | cons w ws ih =>
    rw [jsMax_cons]
    have h := ih (max v w)
    rcases List.mem_cons.mp h with heq | h₂
    · rw [heq]
      rcases max_choice v w with hm | hm
      · rw [hm]
        exact List.mem_cons_self _ _
      · rw [hm]
        exact List.mem_cons_of_mem _ (List.mem_cons_self _ _)
    · exact List.mem_cons_of_mem _ (List.mem_cons_of_mem _ h₂)

theorem rawScores_pos {current baselineMap : List (String × ℕ)}
    {windowDays : ℕ} {p : String × ℝ}
    (h : p ∈ rawScores current baselineMap windowDays) : 0 < p.2 := by
  rw [rawScores] at h
  obtain ⟨q, _, hq⟩ := List.mem_map.mp h
  subst hq
  simp only []
  set stats := baselineStats baselineMap
  have hvol : 0 ≤ Real.log (1 + (q.2 : ℝ)) := by
    apply Real.log_nonneg
    have : (0 : ℝ) ≤ (q.2 : ℝ) := Nat.cast_nonneg q.2
    linarith
  have hdenpos : 0 < (mapGet baselineMap q.1 : ℝ) / max (windowDays : ℝ) 1 + 1 := by
    have h1 : (0 : ℝ) ≤ (mapGet baselineMap q.1 : ℝ) := Nat.cast_nonneg _
    have h2 : (0 : ℝ) < max (windowDays : ℝ) 1 :=
      lt_of_lt_of_le one_pos (le_max_right _ _)
    have := div_nonneg h1 (le_of_lt h2)
    linarith
  have hgrowth : 0 < ((q.2 : ℝ) + 1) / ((mapGet baselineMap q.1 : ℝ) / max (windowDays : ℝ) 1 + 1) := by
    apply div_pos ?_ hdenpos
    have : (0 : ℝ) ≤ (q.2 : ℝ) := Nat.cast_nonneg q.2
    linarith
  have hlog : 0 < Real.log (1 + ((q.2 : ℝ) + 1) / ((mapGet baselineMap q.1 : ℝ) / max (windowDays : ℝ) 1 + 1)) := by
    apply Real.log_pos
    linarith
  have hz : 0 ≤ max 0 (if stats.2 > 0 then ((q.2 : ℝ) - stats.1) / stats.2 else 0) :=
    le_max_left 0 _
  nlinarith

theorem round_bounds {x : ℝ} (h0 : 0 ≤ x) (h100 : x ≤ 100) :
    0 ≤ round x ∧ round x ≤ 100 := by
  rw [round_eq]
  constructor
  · have : (0 : ℝ) ≤ x + 1 / 2 := by linarith
    exact_mod_cast Int.le_floor.mpr (by push_cast; linarith)
  · rw [Int.floor_le_iff]
    push_cast
    linarith

theorem round_hundred : round ((100 : ℝ)) = 100 := by
  have := @round_intCast ℝ _ _ 100
  exact_mod_cast this

theorem zip_self_map {α β : Type} (l : List α) (g : α → β) :
    l.zip (l.map g) = l.map (fun a => (a, g a)) := by
  induction l with
  | nil => rfl
  | cons a t ih => simp [ih]

theorem scoreCore_eq_of_pos {current baselineMap : List (String × ℕ)}
    {windowDays topN : ℕ} {r : ℝ} {rs : List ℝ}
    (hsnd : (rawScores current baselineMap windowDays).map Prod.snd = r :: rs)
    (hmx : 0 < jsMax r rs) :
    scoreCore current baselineMap windowDays topN =
      (sortDescBy Prod.snd ((rawScores current baselineMap windowDays).map
        (fun p => (p.1, round (p.2 / jsMax r rs * 100))))).take topN := by
  rw [scoreCore]
  have hn : normalizeTo100 ((rawScores current baselineMap windowDays).map Prod.snd) =
      ((rawScores current baselineMap windowDays).map Prod.snd).map
        (fun x => round (x / jsMax r rs * 100)) := by
    rw [hsnd]
    rw [normalizeTo100]
    rw [if_neg (not_le.mpr hmx)]
  rw [hn, List.map_map, zip_self_map, List.map_map]
  rfl

theorem scoreCore_eq_of_nonpos {current baselineMap : List (String × ℕ)}
    {windowDays topN : ℕ} {r : ℝ} {rs : List ℝ}
    (hsnd : (rawScores current baselineMap windowDays).map Prod.snd = r :: rs)
    (hmx : jsMax r rs ≤ 0) :
    scoreCore current baselineMap windowDays topN =
      (sortDescBy Prod.snd ((rawScores current baselineMap windowDays).map
        (fun p => (p.1, (0 : ℤ))))).take topN := by
  rw [scoreCore]
  have hn : normalizeTo100 ((rawScores current baselineMap windowDays).map Prod.snd) =
      ((rawScores current baselineMap windowDays).map Prod.snd).map
        (fun _ => (0 : ℤ)) := by
    rw [hsnd]
    rw [normalizeTo100]
    rw [if_pos hmx]
  rw [hn, List.map_map, zip_self_map, List.map_map]
  rfl

theorem scoreCore_mem_bounds {current baselineMap : List (String × ℕ)}
    {windowDays topN : ℕ} {e : String × ℤ}
    (h : e ∈ scoreCore current baselineMap windowDays topN) :
    0 ≤ e.2 ∧ e.2 ≤ 100 := by
  cases hsnd : (rawScores current baselineMap windowDays).map Prod.snd with
  | nil =>
    rw [List.map_eq_nil_iff] at hsnd
    rw [scoreCore] at h
    simp only [hsnd] at h
    simp [sortDescBy] at h
  | cons r rs =>
    by_cases hmx : jsMax r rs ≤ 0
    · rw [scoreCore_eq_of_nonpos hsnd hmx] at h
      have h₂ := (sortDescBy_perm Prod.snd _).mem_iff.mp
        (List.mem_of_mem_take h)
      obtain ⟨p, _, hp⟩ := List.mem_map.mp h₂
      rw [← hp]
      exact ⟨le_refl 0, by norm_num⟩
    · push_neg at hmx
      rw [scoreCore_eq_of_pos hsnd hmx] at h
      have h₂ := (sortDescBy_perm Prod.snd _).mem_iff.mp
        (List.mem_of_mem_take h)
      obtain ⟨p, hpmem, hp⟩ := List.mem_map.mp h₂
      have hpos : 0 < p.2 := rawScores_pos hpmem
      have hle : p.2 ≤ jsMax r rs := by
        apply le_jsMax_of_mem
        rw [← hsnd]
        exact List.mem_map_of_mem Prod.snd hpmem
      have hdiv0 : 0 ≤ p.2 / jsMax r rs * 100 := by positivity
      have hdiv100 : p.2 / jsMax r rs * 100 ≤ 100 := by
        have hd1 : p.2 / jsMax r rs ≤ 1 := (div_le_one hmx).mpr hle
        nlinarith
      obtain ⟨hb1, hb2⟩ := round_bounds hdiv0 hdiv100
      rw [← hp]
      exact ⟨hb1, hb2⟩

theorem sortDescBy_head_ge {α κ : Type} [LinearOrder κ] (key : α → κ)
    {y : α} {ys : List α} {x : α} (hs : (y :: ys).Pairwise (fun a b => key b ≤ key a))
    (hx : x ∈ y :: ys) : key x ≤ key y := by
  rcases List.mem_cons.mp hx with rfl | h₂
  · exact le_refl _
  · exact List.rel_of_pairwise_cons hs h₂

theorem scoreCore_achieves_100 {current baselineMap : List (String × ℕ)}
    {windowDays topN : ℕ} {r : ℝ} {rs : List ℝ}
    (hsnd : (rawScores current baselineMap windowDays).map Prod.snd = r :: rs)
    (hmx : 0 < jsMax r rs) (htop : 1 ≤ topN) :
    ∃ e ∈ scoreCore current baselineMap windowDays topN, e.2 = 100 := by
  rw [scoreCore_eq_of_pos hsnd hmx]
  set f : String × ℝ → String × ℤ :=
    fun p => (p.1, round (p.2 / jsMax r rs * 100)) with hf
  -- an element with raw score equal to the maximum maps to score 100
  have hmem : jsMax r rs ∈ (rawScores current baselineMap windowDays).map Prod.snd := by
    rw [hsnd]
    exact jsMax_mem r rs
  obtain ⟨p, hpmem, hp⟩ := List.mem_map.mp hmem
  have hfp : (f p).2 = 100 := by
    rw [hf]
    simp only []
    rw [hp, div_self (ne_of_gt hmx), one_mul, round_hundred]
  -- the sorted list is non-empty
  have hmapne : (rawScores current baselineMap windowDays).map f ≠ [] := by
    intro hnil
    rw [List.map_eq_nil_iff] at hnil
    rw [hnil] at hpmem
    cases hpmem
  have hsortne : sortDescBy Prod.snd
      ((rawScores current baselineMap windowDays).map f) ≠ [] := by
    intro hnil
    have := (sortDescBy_perm Prod.snd
      ((rawScores current baselineMap windowDays).map f)).symm.mem_iff.mp
      (List.mem_map_of_mem f hpmem)
    rw [hnil] at this
    cases this
  obtain ⟨y, ys, hys⟩ := List.exists_cons_of_ne_nil hsortne
  -- the head has score 100
  have hsorted := sortDescBy_sorted Prod.snd
    ((rawScores current baselineMap windowDays).map f)
  rw [hys] at hsorted
  have hfp_mem : f p ∈ y :: ys := by
    rw [← hys]
    exact (sortDescBy_perm Prod.snd _).symm.mem_iff.mp (List.mem_map_of_mem f hpmem)
  have h100y : 100 ≤ y.2 := by
    have := sortDescBy_head_ge Prod.snd hsorted hfp_mem
    rw [hfp] at this
    exact this
  have hy_mem_map : y ∈ (rawScores current baselineMap windowDays).map f := by
    have : y ∈ y :: ys := List.mem_cons_self _ _
    rw [← hys] at this
    exact (sortDescBy_perm Prod.snd _).mem_iff.mp this
  have hy100 : y.2 ≤ 100 := by
    obtain ⟨q, hqmem, hq⟩ := List.mem_map.mp hy_mem_map
    have hqpos : 0 < q.2 := rawScores_pos hqmem
    have hqle : q.2 ≤ jsMax r rs := by
      apply le_jsMax_of_mem
      rw [← hsnd]
      exact List.mem_map_of_mem Prod.snd hqmem
    have hdiv0 : 0 ≤ q.2 / jsMax r rs * 100 := by positivity
    have hdiv100 : q.2 / jsMax r rs * 100 ≤ 100 := by
      have hd1 : q.2 / jsMax r rs ≤ 1 := (div_le_one hmx).mpr hqle
      nlinarith
    have := (round_bounds hdiv0 hdiv100).2
    rw [← hq]
    exact this
  obtain ⟨n, rfl⟩ := Nat.exists_eq_add_of_le htop
  refine ⟨y, ?_, le_antisymm hy100 h100y⟩
  rw [hys]
  have hn1 : 1 + n = n + 1 := by omega
  rw [hn1, List.take_succ_cons]
  exact List.mem_cons_self _ _

theorem rawScores_map_snd_cons {current baselineMap : List (String × ℕ)}
    {windowDays : ℕ} (h : current ≠ []) :
    ∃ r rs, (rawScores current baselineMap windowDays).map Prod.snd = r :: rs ∧
      0 < jsMax r rs := by
  obtain ⟨p, rest, rfl⟩ := List.exists_cons_of_ne_nil h
  cases hsnd : (rawScores (p :: rest) baselineMap windowDays).map Prod.snd with
  | nil =>
    rw [List.map_eq_nil_iff, rawScores] at hsnd
    simp at hsnd
  | cons r rs =>
    refine ⟨r, rs, rfl, ?_⟩
    have hrmem : r ∈ (rawScores (p :: rest) baselineMap windowDays).map Prod.snd := by
      rw [hsnd]
      exact List.mem_cons_self _ _
    obtain ⟨q, hqmem, hq⟩ := List.mem_map.mp hrmem
    have := rawScores_pos hqmem
    rw [hq] at this
    exact lt_of_lt_of_le this (le_jsMax_self r rs)

theorem scoreTrends_empty_current (day : ℤ) (category : String)
    (windowDays topN cfgTopN : ℕ) (now : ℤ) (env : FetchEnv) (store : Store)
    (h : ∀ cd, findFirst (matchKey "daily" day category)
        (ensureDailyCoverage day windowDays cfgTopN env store) = some cd →
      cd.keywords = []) :
    (scoreTrends day category windowDays topN cfgTopN now env store).1 = [] ∧
    (scoreTrends day category windowDays topN cfgTopN now env store).2 =
      ensureDailyCoverage day windowDays cfgTopN env store := by
  rw [scoreTrends]
  cases hcd : findFirst (matchKey "daily" day category)
      (ensureDailyCoverage day windowDays cfgTopN env store) with
  | none => simp [hcd]
  | some cd =>
    have hkw : cd.keywords = [] := h cd hcd
    simp [hcd, hkw]

/-! ## Claims -/

/-- C5 counterexample: a plain object enumerates array-index-like keys
first in ascending numeric order, before the insertion-ordered string
keys, so `rankByCount(["b", "5"], 2)` returns `[(5, 1), (b, 1)]` and not
the first-seen tie order `[(b, 1), (5, 1)]` asserted by the claim. -/
theorem rankByCount_tie_counterexample :
    Ranker.rankByCount ["b", "5"] 2 = [("5", 1), ("b", 1)] ∧
    Ranker.rankByCount ["b", "5"] 2 ≠
      (firstSeen ["b", "5"]).map (fun w => (w, 1)) := by
  decide

/-- C5 (amended): for every input list and every `topN`, `rankByCount`
returns at most `topN` entries, sorted non-increasingly by count, whose
counts sum to at most the total multiplicity of the input; entries with
equal counts appear in the enumeration order of the tally object
(`entriesOf`), which lists the array-index-like words (canonical decimals
below `2^32 - 1`) first in ascending numeric order and then the remaining
words in first-occurrence order; and on `[a, b, a, c, b, d]` with
`topN = 2` the result is `[(a, 2), (b, 2)]`. -/
theorem rankByCount_props :
    (∀ (arr : List String) (topN : ℕ),
      (Ranker.rankByCount arr topN).length ≤ topN ∧
      (Ranker.rankByCount arr topN).Pairwise (fun a b => b.2 ≤ a.2) ∧
      ((Ranker.rankByCount arr topN).map Prod.snd).sum ≤ arr.length ∧
      (∀ c : ℕ, List.Sublist
        ((Ranker.rankByCount arr topN).filter (fun e => e.2 == c))
        ((Ranker.entriesOf arr).filter (fun e => e.2 == c))) ∧
      ((Ranker.entriesOf arr).filter
          (fun e => Ranker.isArrayIndex e.1)).Pairwise
        (fun a b => Ranker.digitsToNat a.1.data ≤ Ranker.digitsToNat b.1.data) ∧
      ((Ranker.entriesOf arr).filter
          (fun e => !Ranker.isArrayIndex e.1)).map Prod.fst =
        (firstSeen arr).filter (fun w => !Ranker.isArrayIndex w)) ∧
    Ranker.rankByCount ["a", "b", "a", "c", "b", "d"] 2 =
      [("a", 2), ("b", 2)] := by
  constructor
  · intro arr topN
    refine ⟨?_, ?_, ?_, ?_, ?_, ?_⟩
    · rw [Ranker.rankByCount]
      exact List.length_take_le topN _
    · exact List.Pairwise.sublist (List.take_sublist _ _)
        (sortDescBy_sorted Prod.snd _)
    · rw [Ranker.rankByCount, List.map_take]
      calc (((sortDescBy Prod.snd (Ranker.entriesOf arr)).map Prod.snd).take topN).sum
          ≤ ((sortDescBy Prod.snd (Ranker.entriesOf arr)).map Prod.snd).sum :=
            sum_take_le _ _
        _ = ((Ranker.entriesOf arr).map Prod.snd).sum :=
            ((sortDescBy_perm Prod.snd _).map Prod.snd).sum_eq
        _ = arr.length := Ranker.entriesOf_sum arr
    · intro c
      have h1 : List.Sublist
          ((Ranker.rankByCount arr topN).filter (fun e => e.2 == c))
          ((sortDescBy Prod.snd (Ranker.entriesOf arr)).filter
            (fun e => e.2 == c)) :=
        (List.take_sublist _ _).filter _
      rwa [sortDescBy_filter_eq] at h1
    · exact Ranker.entriesOf_index_sorted arr
    · exact Ranker.entriesOf_nonindex_fst arr
  · decide

/-- C6 counterexample: the aggregator's `rankByCount` does not skip an item
with a missing `word`; the call fails with a `TypeError` (from
`item.word.toLowerCase()`), instead of returning the ranking of the
remaining items. -/
theorem rankByCount_missing_word_counterexample :
    Aggregator.rankByCount
      [⟨none, none, none⟩, ⟨some "a", none, none⟩] 50 =
        .error .typeError ∧
    Aggregator.rankByCount
      [⟨none, none, none⟩, ⟨some "a", none, none⟩] 50 ≠
        .ok [⟨"a", 1, []⟩] := by
  constructor
  · decide
  · decide

/-- C6 amended: an item with a missing `word` makes the aggregator's
`rankByCount` throw: whenever the input contains such an item, the call
fails with a `TypeError` — no item is skipped silently. -/
theorem rankByCount_missing_word_fails (arr : List AggItem) (topN : ℕ)
    (h : ∃ it ∈ arr, it.word = none) :
    Aggregator.rankByCount arr topN = .error .typeError := by
  rw [Aggregator.rankByCount, Aggregator.foldlM_step_error arr [] h]
  rfl

/-- C6 witness. -/
theorem rankByCount_missing_word_fails_witness :
    (∃ it ∈ [(⟨none, none, none⟩ : AggItem)], it.word = none) ∧
    Aggregator.rankByCount [(⟨none, none, none⟩ : AggItem)] 50 =
      .error .typeError :=
  ⟨⟨⟨none, none, none⟩, List.mem_singleton.mpr rfl, rfl⟩,
    rankByCount_missing_word_fails _ 50
      ⟨⟨none, none, none⟩, List.mem_singleton.mpr rfl, rfl⟩⟩

/-- C7: every token returned by `splitAndClean` is outside the stopword
set, has at least 3 characters, matches neither of the URL prefixes, is not
a strict bare domain, not a numeric vector, and does not have more than 60%
digit characters. -/
theorem splitAndClean_no_noise (t : String) :
    ∀ tok ∈ splitAndClean t,
      tok ∉ STOPWORDS ∧ 3 ≤ tok.length ∧ isUrl tok = false ∧
      isStrictDomain tok = false ∧ isNumericVector tok = false ∧
      isMostlyDigitsOrPunct tok = false := by
  intro tok h
  obtain ⟨⟨part, hpart⟩, hnoise⟩ := mem_splitAndClean h
  obtain ⟨hsw, hne⟩ := cleanKeyword_not_stopword hpart
  obtain ⟨h3, hu, hd, hv, hm⟩ :=
    isNoiseToken_false_parts (cleanKeyword_trim_self hpart) hne hnoise
  exact ⟨hsw, h3, hu, hd, hv, hm⟩

/-- C7 witness. -/
theorem splitAndClean_no_noise_witness :
    "tax_political" ∈ splitAndClean "TAX_POLITICAL;AND;TH" ∧
    ("tax_political" ∉ STOPWORDS ∧ 3 ≤ "tax_political".length ∧
      isUrl "tax_political" = false ∧ isStrictDomain "tax_political" = false ∧
      isNumericVector "tax_political" = false ∧
      isMostlyDigitsOrPunct "tax_political" = false) :=
  ⟨by decide, splitAndClean_no_noise "TAX_POLITICAL;AND;TH" "tax_political"
    (by decide)⟩

/-- C8 counterexample: on the scenario-S3 input, `splitAndClean` does not
return `["tax_political", "covid-19"]`. -/
theorem splitAndClean_s3_counterexample :
    splitAndClean
      "TAX_POLITICAL;AND;example.com;google.com/news;1.2,3.4,5.6,7.8;covid-19;TH" ≠
      ["tax_political", "covid-19"] := by
  decide

/-- C8 amended: on the scenario-S3 input, `splitAndClean` keeps the
URL-like path `google.com/news` (it matches neither `^https?:\/\/` nor
`^www\.` nor the strict bare-domain regex, whose full match is broken by
the slash), so the result is
`["tax_political", "google.com/news", "covid-19"]`; the stopword `and`,
the bare domain `example.com`, the numeric vector and the 2-character `TH`
are dropped. -/
theorem splitAndClean_s3_actual :
    splitAndClean
      "TAX_POLITICAL;AND;example.com;google.com/news;1.2,3.4,5.6,7.8;covid-19;TH" =
      ["tax_political", "google.com/news", "covid-19"] ∧
    isUrl "google.com/news" = false ∧
    isStrictDomain "google.com/news" = false ∧
    isStrictDomain "example.com" = true ∧
    isNumericVector "1.2,3.4,5.6,7.8" = true := by
  refine ⟨by decide, by decide, by decide, by decide, by decide⟩

/-- C2: per keyword the raw score is exactly
`0.6·ln(1+count) + 0.3·ln(1+growth) + 0.1·max(0, z)` with
`growth = (count+1)/(base/max(windowDays,1)+1)` and
`z = (count−μ)/σ` when `σ > 0` else `0`, where `μ, σ` are the population
mean and standard deviation of the baseline values (`[0]` for an empty
baseline); after linear normalization with integer rounding every returned
score lies in `[0, 100]`; the maximum score is exactly 100 (it is attained,
and by the range bound nothing exceeds it) whenever the current set is
non-empty, `topN ≥ 1` and the maximum raw score is positive; and when the
maximum raw score is non-positive every normalized score is 0. -/
theorem scoreCore_spec (current baselineMap : List (String × ℕ))
    (windowDays topN : ℕ) :
    (rawScores current baselineMap windowDays = current.map (fun p =>
      (p.1, 0.6 * Real.log (1 + (p.2 : ℝ)) +
        0.3 * Real.log (1 + ((p.2 : ℝ) + 1) /
          ((mapGet baselineMap p.1 : ℝ) / max (windowDays : ℝ) 1 + 1)) +
        0.1 * max 0 (if (baselineStats baselineMap).2 > 0 then
          ((p.2 : ℝ) - (baselineStats baselineMap).1) /
            (baselineStats baselineMap).2
          else 0)))) ∧
    (baselineStats baselineMap = specBaselineStats baselineMap) ∧
    (∀ e ∈ scoreCore current baselineMap windowDays topN,
      0 ≤ e.2 ∧ e.2 ≤ 100) ∧
    (current ≠ [] → 1 ≤ topN →
      0 < jsMaxList ((rawScores current baselineMap windowDays).map Prod.snd) →
      ∃ e ∈ scoreCore current baselineMap windowDays topN, e.2 = 100) ∧
    (∀ (v : ℝ) (vs : List ℝ), jsMax v vs ≤ 0 →
      normalizeTo100 (v :: vs) = (v :: vs).map (fun _ => 0)) := by
  refine ⟨rfl, ?_, ?_, ?_, ?_⟩
  · cases baselineMap with
    | nil => simp [baselineStats, specBaselineStats, computeStats]
    | cons b bm => simp [baselineStats, specBaselineStats, computeStats]
  · intro e he
    exact scoreCore_mem_bounds he
  · intro hne htop hpos
    obtain ⟨r, rs, hsnd, _⟩ := @rawScores_map_snd_cons current baselineMap windowDays hne
    rw [hsnd] at hpos
    exact scoreCore_achieves_100 hsnd hpos htop
  · intro v vs h
    rw [normalizeTo100]
    rw [if_pos h]

/-- C2 witness. -/
theorem scoreCore_spec_witness :
    (([(("a" : String), (3 : ℕ))] ≠ [] ∧ 1 ≤ 50 ∧
      0 < jsMaxList ((rawScores [("a", 3)] [("b", 2)] 7).map Prod.snd)) ∧
     ∃ e ∈ scoreCore [("a", 3)] [("b", 2)] 7 50, e.2 = 100) ∧
    jsMax (-1 : ℝ) [] ≤ 0 ∧
    normalizeTo100 [(-1 : ℝ)] = [0] := by
  have hne : [(("a" : String), (3 : ℕ))] ≠ [] := by decide
  have hpos : 0 < jsMaxList ((rawScores [("a", 3)] [("b", 2)] 7).map Prod.snd) := by
    obtain ⟨r, rs, hsnd, hmx⟩ :=
      @rawScores_map_snd_cons [("a", 3)] [("b", 2)] 7 hne
    rw [hsnd]
    exact hmx
  have hneg : jsMax (-1 : ℝ) [] ≤ 0 := by
    have : jsMax (-1 : ℝ) [] = -1 := rfl
    rw [this]
    norm_num
  have h := scoreCore_spec [("a", 3)] [("b", 2)] 7 50
  refine ⟨⟨⟨hne, by norm_num, hpos⟩, h.2.2.2.1 hne (by norm_num) hpos⟩, hneg, ?_⟩
  have := h.2.2.2.2 (-1 : ℝ) [] hneg
  simpa using this

/-- C9: when the `daily` document the Scorer loads for `(date, category)`
after the coverage phase is missing or has an empty keyword list,
`scoreTrends` returns `[]` and leaves the ranked documents of the store
exactly as they were before the call (the coverage phase writes only
`daily` documents). -/
theorem scoreTrends_empty_no_ranked_write (day : ℤ) (category : String)
    (windowDays topN cfgTopN : ℕ) (now : ℤ) (env : FetchEnv) (store : Store)
    (h : ∀ cd, findFirst (matchKey "daily" day category)
        (ensureDailyCoverage day windowDays cfgTopN env store) = some cd →
      cd.keywords = []) :
    (scoreTrends day category windowDays topN cfgTopN now env store).1 = [] ∧
    ((scoreTrends day category windowDays topN cfgTopN now env store).2).filter
        (fun d => d.type == "ranked") =
      store.filter (fun d => d.type == "ranked") := by
  obtain ⟨h1, h2⟩ := scoreTrends_empty_current day category windowDays topN
    cfgTopN now env store h
  refine ⟨h1, ?_⟩
  rw [h2, ensureDailyCoverage_filter_ranked]

/-- C9 witness. -/
theorem scoreTrends_empty_no_ranked_write_witness :
    (∀ cd, findFirst (matchKey "daily" 0 "themes")
        (ensureDailyCoverage 0 1 50 ⟨fun _ => none, fun _ => none⟩ []) =
          some cd → cd.keywords = []) ∧
    (scoreTrends 0 "themes" 1 50 50 0 ⟨fun _ => none, fun _ => none⟩ []).1 = [] ∧
    ((scoreTrends 0 "themes" 1 50 50 0 ⟨fun _ => none, fun _ => none⟩ []).2).filter
        (fun d => d.type == "ranked") =
      ([] : Store).filter (fun d => d.type == "ranked") := by
  have hnone : findFirst (matchKey "daily" 0 "themes")
      (ensureDailyCoverage 0 1 50 ⟨fun _ => none, fun _ => none⟩ []) = none := by
    decide
  have hdis : ∀ cd, findFirst (matchKey "daily" 0 "themes")
      (ensureDailyCoverage 0 1 50 ⟨fun _ => none, fun _ => none⟩ []) =
        some cd → cd.keywords = [] := by
    intro cd hcd
    rw [hnone] at hcd
    cases hcd
  exact ⟨hdis, scoreTrends_empty_no_ranked_write 0 "themes" 1 50 50 0
    ⟨fun _ => none, fun _ => none⟩ [] hdis⟩

/-- C10: `saveTrends` issues no upsert for a category whose keyword list is
empty: the documents matching that category's `(type, date, category)` key
are exactly those of the incoming store; and every document of the
resulting store either was already present or has a non-empty keyword
list. -/
theorem saveTrends_skips_empty (dateMs ts : ℤ) (jobType : Option String)
    (themes persons orgs : List Kw) (documentIdentifiers : List String)
    (store : Store) :
    (themes = [] →
      (saveTrends dateMs ts jobType themes persons orgs documentIdentifiers
        store).filter (matchKey (jobType.getD "realtime") (dayOfMs dateMs) "themes") =
      store.filter (matchKey (jobType.getD "realtime") (dayOfMs dateMs) "themes")) ∧
    (persons = [] →
      (saveTrends dateMs ts jobType themes persons orgs documentIdentifiers
        store).filter (matchKey (jobType.getD "realtime") (dayOfMs dateMs) "persons") =
      store.filter (matchKey (jobType.getD "realtime") (dayOfMs dateMs) "persons")) ∧
    (orgs = [] →
      (saveTrends dateMs ts jobType themes persons orgs documentIdentifiers
        store).filter (matchKey (jobType.getD "realtime") (dayOfMs dateMs) "orgs") =
      store.filter (matchKey (jobType.getD "realtime") (dayOfMs dateMs) "orgs")) ∧
    (documentIdentifiers = [] →
      (saveTrends dateMs ts jobType themes persons orgs documentIdentifiers
        store).filter (matchKey (jobType.getD "realtime") (dayOfMs dateMs) "documents") =
      store.filter (matchKey (jobType.getD "realtime") (dayOfMs dateMs) "documents")) ∧
    (∀ doc ∈ saveTrends dateMs ts jobType themes persons orgs
        documentIdentifiers store, doc ∈ store ∨ doc.keywords ≠ []) := by
  have hkey : ∀ (cat cat₂ : String) (kws : List Kw), cat ≠ cat₂ →
      (matchKey (jobType.getD "realtime") (dayOfMs dateMs) cat
        (⟨ts, jobType.getD "realtime", dayOfMs dateMs, cat₂, kws⟩ : TrendDoc) = false) ∧
      ∀ d, matchKey (jobType.getD "realtime") (dayOfMs dateMs) cat₂ d = true →
        matchKey (jobType.getD "realtime") (dayOfMs dateMs) cat d = false := by
    intro cat cat₂ kws hne
    constructor
    · simp [matchKey, Ne.symm hne]
    · intro d hd
      obtain ⟨_, _, h3⟩ := matchKey_fields hd
      simp [matchKey, h3, Ne.symm hne]
  have hmain : ∀ (cat : String), (cat = "themes" → themes = []) →
      (cat = "persons" → persons = []) → (cat = "orgs" → orgs = []) →
      (cat = "documents" → documentIdentifiers = []) →
      cat ∈ (["themes", "persons", "orgs", "documents"] : List String) →
      (saveTrends dateMs ts jobType themes persons orgs documentIdentifiers
        store).filter (matchKey (jobType.getD "realtime") (dayOfMs dateMs) cat) =
      store.filter (matchKey (jobType.getD "realtime") (dayOfMs dateMs) cat) := by
    intro cat hth hpe hor hdo hmem
    rw [saveTrends]
    by_cases hdi : documentIdentifiers.isEmpty
    · rw [if_pos hdi]
      refine foldl_saveStep_filter _ store _ ?_
      intro td htd
      simp only [List.mem_cons, List.not_mem_nil, or_false] at htd
      simp only [List.mem_cons, List.not_mem_nil, or_false] at hmem
      rcases htd with rfl | rfl | rfl <;>
        rcases hmem with rfl | rfl | rfl | rfl <;>
          first
            | (left; rw [hth rfl]; rfl)
            | (left; rw [hpe rfl]; rfl)
            | (left; rw [hor rfl]; rfl)
            | (right; exact hkey _ _ _ (by decide))
    · rw [if_neg hdi]
      refine foldl_saveStep_filter _ store _ ?_
      intro td htd
      simp only [List.mem_append, List.mem_cons, List.mem_singleton,
        List.not_mem_nil, or_false] at htd
      simp only [List.mem_cons, List.not_mem_nil, or_false] at hmem
      have hdocs : ¬ documentIdentifiers = [] := by
        intro hnil
        rw [hnil] at hdi
        exact hdi rfl
      rcases htd with (rfl | rfl | rfl) | rfl <;>
        rcases hmem with rfl | rfl | rfl | rfl <;>
          first
            | (left; rw [hth rfl]; rfl)
            | (left; rw [hpe rfl]; rfl)
            | (left; rw [hor rfl]; rfl)
            | (exact absurd (hdo rfl) hdocs)
            | (right; exact hkey _ _ _ (by decide))
  refine ⟨?_, ?_, ?_, ?_, ?_⟩
  · intro h
    exact hmain "themes" (fun _ => h) (fun hc => absurd hc (by decide)) (fun hc => absurd hc (by decide))
      (fun hc => absurd hc (by decide)) (by decide)
  · intro h
    exact hmain "persons" (fun hc => absurd hc (by decide)) (fun _ => h) (fun hc => absurd hc (by decide))
      (fun hc => absurd hc (by decide)) (by decide)
  · intro h
    exact hmain "orgs" (fun hc => absurd hc (by decide)) (fun hc => absurd hc (by decide)) (fun _ => h)
      (fun hc => absurd hc (by decide)) (by decide)
  · intro h
    exact hmain "documents" (fun hc => absurd hc (by decide)) (fun hc => absurd hc (by decide))
      (fun hc => absurd hc (by decide)) (fun _ => h) (by decide)
  · intro doc hdoc
    rcases saveTrends_mem hdoc with h₂ | ⟨_, _, h₃⟩
    · exact Or.inl h₂
    · exact Or.inr h₃

/-- C10 witness. -/
theorem saveTrends_skips_empty_witness :
    (([] : List Kw) = [] ∧
      (saveTrends 0 0 (some "daily") [] [⟨"p", 1, none, []⟩] [] [] []).filter
        (matchKey ((some "daily").getD "realtime") (dayOfMs 0) "themes") =
      ([] : Store).filter
        (matchKey ((some "daily").getD "realtime") (dayOfMs 0) "themes")) ∧
    (∀ doc ∈ saveTrends 0 0 (some "daily") [] [⟨"p", 1, none, []⟩] [] [] [],
      doc ∈ ([] : Store) ∨ doc.keywords ≠ []) := by
  have h := saveTrends_skips_empty 0 0 (some "daily") [] [⟨"p", 1, none, []⟩]
    [] [] []
  exact ⟨⟨rfl, h.1 rfl⟩, h.2.2.2.2⟩

/-- C4: when the 15-minute fetch fails, the fetcher tries the daily file of
today (offset 0) and then of yesterday (offset 1); the first success
persists via `saveTrends` with `jobType = daily` and date/timestamp equal
to that day's UTC midnight and returns `true`; in the yesterday case the
only new documents are `daily` documents dated yesterday (no `realtime`
document is written); when all attempts fail, the call returns `false`
with the store untouched, without throwing. -/
theorem fetchAndProcess_fallback_ladder (dateMs : ℤ) (topN : ℕ)
    (env : FetchEnv) (store : Store)
    (h15 : env.fifteen (floor15 dateMs) = none) :
    (∀ c, env.daily (dayOfMs dateMs) = some c →
      fetchAndProcess dateMs topN env store =
        (true, saveTrends (dayOfMs dateMs * msPerDay) (dayOfMs dateMs * msPerDay)
          (some "daily") ((rankCollector c topN).1.map pairToKw)
          ((rankCollector c topN).2.1.map pairToKw)
          ((rankCollector c topN).2.2.map pairToKw)
          c.documentIdentifiers store)) ∧
    (∀ c, env.daily (dayOfMs dateMs) = none →
      env.daily (dayOfMs dateMs - 1) = some c →
      fetchAndProcess dateMs topN env store =
        (true, saveTrends ((dayOfMs dateMs - 1) * msPerDay)
          ((dayOfMs dateMs - 1) * msPerDay)
          (some "daily") ((rankCollector c topN).1.map pairToKw)
          ((rankCollector c topN).2.1.map pairToKw)
          ((rankCollector c topN).2.2.map pairToKw)
          c.documentIdentifiers store) ∧
      ∀ doc ∈ (fetchAndProcess dateMs topN env store).2,
        doc ∈ store ∨ (doc.type = "daily" ∧ doc.date = dayOfMs dateMs - 1 ∧
          doc.keywords ≠ [])) ∧
    (env.daily (dayOfMs dateMs) = none → env.daily (dayOfMs dateMs - 1) = none →
      fetchAndProcess dateMs topN env store = (false, store)) := by
  refine ⟨?_, ?_, ?_⟩
  · intro c hd0
    exact fetchAndProcess_today h15 hd0
  · intro c hd0 hd1
    have heq := @fetchAndProcess_yesterday dateMs topN env store c h15 hd0 hd1
    refine ⟨heq, ?_⟩
    intro doc hdoc
    rw [heq] at hdoc
    rcases saveTrends_mem hdoc with h₂ | ⟨ht, hd, hk⟩
    · exact Or.inl h₂
    · refine Or.inr ⟨ht, ?_, hk⟩
      rw [hd, dayOfMs_mul]
  · intro hd0 hd1
    exact fetchAndProcess_all_fail h15 hd0 hd1

/-- C4 witness. -/
theorem fetchAndProcess_fallback_ladder_witness :
    ((⟨fun _ => none, fun d => if d = -1 then some ⟨["x"], [], [], []⟩ else none⟩ :
      FetchEnv).fifteen (floor15 0) = none ∧
     (⟨fun _ => none, fun d => if d = -1 then some ⟨["x"], [], [], []⟩ else none⟩ :
      FetchEnv).daily (dayOfMs 0) = none ∧
     (⟨fun _ => none, fun d => if d = -1 then some ⟨["x"], [], [], []⟩ else none⟩ :
      FetchEnv).daily (dayOfMs 0 - 1) = some ⟨["x"], [], [], []⟩) ∧
    ∀ doc ∈ (fetchAndProcess 0 50
        ⟨fun _ => none, fun d => if d = -1 then some ⟨["x"], [], [], []⟩ else none⟩
        []).2,
      doc ∈ ([] : Store) ∨ (doc.type = "daily" ∧ doc.date = dayOfMs 0 - 1 ∧
        doc.keywords ≠ []) := by
  refine ⟨⟨rfl, by decide, by decide⟩, ?_⟩
  have h := fetchAndProcess_fallback_ladder 0 50
    ⟨fun _ => none, fun d => if d = -1 then some ⟨["x"], [], [], []⟩ else none⟩
    [] rfl
  exact (h.2.1 ⟨["x"], [], [], []⟩ (by decide) (by decide)).2

/-- C3: on the current code's 15-minute success path the claim fails: after
a successful download the `try` block evaluates the out-of-scope `d` and
`dailyDate` (`gdeltFetcher.js` lines 123 and 126), raising a
`ReferenceError` that the `catch` swallows, so the run is identical to one
whose 15-minute fetch failed — the daily fallback ladder IS entered,
nothing is persisted for the 15-minute file, the caller's `jobType`
(default `realtime`) is never used, and no `realtime` document is ever
written. -/
theorem fetchAndProcess_fifteen_success_bug (dateMs : ℤ) (topN : ℕ)
    (env : FetchEnv) (store : Store) (c : FCollector)
    (h15 : env.fifteen (floor15 dateMs) = some c) :
    fifteenAttempt dateMs env = .error .referenceError ∧
    fetchAndProcess dateMs topN env store =
      fetchAndProcess dateMs topN ⟨fun _ => none, env.daily⟩ store ∧
    ∀ doc ∈ (fetchAndProcess dateMs topN env store).2,
      doc ∈ store ∨ (doc.type = "daily" ∧ doc.keywords ≠ []) := by
  refine ⟨fifteenAttempt_referenceError h15, ?_, ?_⟩
  · rw [fetchAndProcess, fetchAndProcess, fifteenAttempt_referenceError h15]
    rfl
  · intro doc hdoc
    exact fetchAndProcess_mem hdoc

/-- C3 witness: a successfully downloaded and parsed 15-minute file with
both daily fallbacks failing makes the call return `false` and write
nothing, where the claim expects a `realtime` write and success. -/
theorem fetchAndProcess_fifteen_success_bug_witness :
    ((⟨fun _ => some ⟨["x"], [], [], []⟩, fun _ => none⟩ : FetchEnv).fifteen
      (floor15 0) = some ⟨["x"], [], [], []⟩) ∧
    fifteenAttempt 0 ⟨fun _ => some ⟨["x"], [], [], []⟩, fun _ => none⟩ =
      .error .referenceError ∧
    fetchAndProcess 0 50 ⟨fun _ => some ⟨["x"], [], [], []⟩, fun _ => none⟩ [] =
      (false, []) := by
  have h := fetchAndProcess_fifteen_success_bug 0 50
    ⟨fun _ => some ⟨["x"], [], [], []⟩, fun _ => none⟩ [] ⟨["x"], [], [], []⟩ rfl
  exact ⟨rfl, h.1, by decide⟩

/-- C1 counterexample: two `aggregateFromFile` calls on the same UTC day
(timestamps 0 ms and 1 ms of day 0) leave two `realtime` documents for the
`(realtime, day 0, themes)` triple, because the upsert filter of
`aggregateFromFile` includes `timestamp` in the match key. -/
theorem aggregateFromFile_two_snapshots_counterexample :
    (aggregateFromFile ⟨[], [], [], []⟩ 0 "all" 50 []).bind
      (fun s₁ => (aggregateFromFile ⟨[], [], [], []⟩ 1 "all" 50 s₁).map
        (fun s₂ => (s₂.filter (matchKey "realtime" 0 "themes")).length)) =
      .ok 2 := by
  decide

/-- C1 amended: `saveTrends` (and `aggregateDaily`) upsert on the match key
`(type, date, category)` with `timestamp` as payload and so preserve the
at-most-one-document-per-triple invariant, but `aggregateFromFile` includes
`timestamp` in its realtime match key, so two calls on the same UTC day
with different timestamps leave two realtime documents per category, one
per timestamp, not one. -/
theorem upsert_match_keys :
    (∀ (dateMs ts : ℤ) (jobType : Option String)
      (themes persons orgs : List Kw) (documentIdentifiers : List String)
      (store : Store), AtMostOne store →
      AtMostOne (saveTrends dateMs ts jobType themes persons orgs
        documentIdentifiers store)) ∧
    (∀ (collectorsArray : List PCollector) (date : ℤ) (category : String)
      (topN : ℕ) (now : ℤ) (store s₂ : Store),
      aggregateDaily collectorsArray date category topN now store = .ok s₂ →
      AtMostOne store → AtMostOne s₂) ∧
    (∀ (ts₁ ts₂ : ℤ) (topN : ℕ), dayOfMs ts₁ = dayOfMs ts₂ → ts₁ ≠ ts₂ →
      ∃ s₁ s₂,
        aggregateFromFile ⟨[], [], [], []⟩ ts₁ "all" topN [] = .ok s₁ ∧
        aggregateFromFile ⟨[], [], [], []⟩ ts₂ "all" topN s₁ = .ok s₂ ∧
        (s₂.filter (matchKey "realtime" (dayOfMs ts₁) "themes")).length = 2) := by
  refine ⟨?_, ?_, ?_⟩
  · intro dateMs ts jobType themes persons orgs documentIdentifiers store h
    exact saveTrends_atMostOne h
  · intro collectorsArray date category topN now store s₂ h hone
    exact aggregateDaily_atMostOne h hone
  · intro ts₁ ts₂ topN hday hne
    have hne₂ : (ts₁ == ts₂) = false := beq_eq_false_iff_ne.mpr hne
    refine ⟨[⟨ts₁, "realtime", dayOfMs ts₁, "themes", []⟩,
             ⟨ts₁, "realtime", dayOfMs ts₁, "persons", []⟩,
             ⟨ts₁, "realtime", dayOfMs ts₁, "orgs", []⟩],
            [⟨ts₁, "realtime", dayOfMs ts₁, "themes", []⟩,
             ⟨ts₁, "realtime", dayOfMs ts₁, "persons", []⟩,
             ⟨ts₁, "realtime", dayOfMs ts₁, "orgs", []⟩,
             ⟨ts₂, "realtime", dayOfMs ts₂, "themes", []⟩,
             ⟨ts₂, "realtime", dayOfMs ts₂, "persons", []⟩,
             ⟨ts₂, "realtime", dayOfMs ts₂, "orgs", []⟩], ?_, ?_, ?_⟩
    · simp [aggregateFromFile, Aggregator.rankByCount, PCollector.getCat,
        upsertBy, matchKey, firstSeen, sortDescBy, entryToKw, replaceFirst,
        Except.map, pure, Except.pure, bind, Except.bind]
    · simp [aggregateFromFile, Aggregator.rankByCount, PCollector.getCat,
        upsertBy, matchKey, firstSeen, sortDescBy, entryToKw, replaceFirst,
        Except.map, pure, Except.pure, bind, Except.bind, hday, hne₂, hne]
    · simp [matchKey, hday]

/-- C1 witness. -/
theorem upsert_match_keys_witness :
    AtMostOne (saveTrends 0 0 (some "daily") [⟨"x", 1, none, []⟩] [] [] [] []) ∧
    AtMostOne [(⟨0, "daily", 0, "themes", []⟩ : TrendDoc),
      ⟨0, "daily", 0, "persons", []⟩, ⟨0, "daily", 0, "orgs", []⟩] ∧
    (∃ s₁ s₂,
      aggregateFromFile ⟨[], [], [], []⟩ 0 "all" 50 [] = .ok s₁ ∧
      aggregateFromFile ⟨[], [], [], []⟩ 1 "all" 50 s₁ = .ok s₂ ∧
      (s₂.filter (matchKey "realtime" (dayOfMs 0) "themes")).length = 2) := by
  have hnil : AtMostOne ([] : Store) := by
    intro t d c
    simp
  refine ⟨upsert_match_keys.1 0 0 (some "daily") [⟨"x", 1, none, []⟩] [] [] []
      [] hnil, ?_, ?_⟩
  · exact upsert_match_keys.2.1 [] 0 "all" 50 0 []
      [⟨0, "daily", 0, "themes", []⟩, ⟨0, "daily", 0, "persons", []⟩,
       ⟨0, "daily", 0, "orgs", []⟩] (by decide) hnil
  · exact upsert_match_keys.2.2 0 1 50 (by decide) (by decide)
